import Mathlib

/-!
Verification of the workspace resolution core (`src/workspace.rs`) of the
prek repository: project discovery ordering, remote-repo deduplication and
distribution, hook assembly indexing, hook-not-found error handling,
selector-based subtree pruning of the discovery walk, and the staging
pre-flight check.

Paths are modelled as lists of components (`List String`), machine strings
as Lean `String`, fallible operations as `Except` / `Option`, and the
pointer identity of an `Arc` allocation as an explicit `instanceId : Nat`
stamped at each allocation site.
-/

namespace Prek

/-- A filesystem path, as its list of components relative to some root. -/
abbrev RelPath := List String

/-- Comparison of two characters by code point; models Rust's ordering on
string elements. -/
def cmpChar (a b : Char) : Ordering := compare a.toNat b.toNat

/-- Generic lexicographic comparison of lists, given an element comparator;
models Rust's derived lexicographic `Ord` on sequences (and on `PathBuf`,
which compares its components lexicographically). -/
def cmpList (cmp : α → α → Ordering) : List α → List α → Ordering
  | [], [] => .eq
  | [], _ :: _ => .lt
  | _ :: _, [] => .gt
  | a :: as, b :: bs => (cmp a b).then (cmpList cmp as bs)

/-- Comparison of two strings, lexicographically by character; models
Rust's `Ord` for strings / path components. -/
def cmpStr (a b : String) : Ordering := cmpList cmpChar a.data b.data

/-- The recognized configuration filename (`CONFIG_FILE` in the source). -/
def CONFIG_FILE : String := ".pre-commit-config.yaml"

/-- A hook definition as it appears in a repository manifest (or inline in a
`local`/`meta` repo entry).  Of its fields only the identifier is consulted
by the workspace-resolution code under verification; the optional
configuration fields are modelled separately by `HookFields` below. -/
structure ManifestHook where
  id : String
deriving DecidableEq

/-- A hook reference declared under a remote repo entry in a project's
configuration: it names a hook id of the remote repo's manifest. -/
structure HookRef where
  id : String
deriving DecidableEq

/-- A remote repo entry of a project configuration: URL, revision pin, and
the declared hook references (`config::RemoteRepo`). -/
structure RemoteRepoConfig where
  repo : String
  rev : String
  hooks : List HookRef
deriving DecidableEq

/-- A repo entry of a project configuration (`config::Repo`): remote,
local (inline hooks), or meta (built-in hooks). -/
inductive ConfigRepo
  | Remote (r : RemoteRepoConfig)
  | Local (hooks : List ManifestHook)
  | Meta (hooks : List ManifestHook)
deriving DecidableEq

/-- The deduplication identity of a remote repo entry: the (URL, revision)
pair. -/
abbrev RepoId := String × String

/-- Modelled from the spec: the equality and hashing used by the seen-set
and the result map for `config::Repo::Remote` entries live in `config.rs`,
which is not part of the sources under verification; the spec states the
identity is the (URL, revision) pair compared by value equality. -/
def remoteKey (r : RemoteRepoConfig) : RepoId := (r.repo, r.rev)

/-- A parsed project configuration (`Config`), reduced to the repo entry
list consulted by `workspace.rs`. -/
structure Config where
  repos : List ConfigRepo
deriving DecidableEq

/-- The payload of a resolved `Repo` (`hook::Repo`): a remote checkout
(with its advertised manifest), or the inline hook list of a local/meta
entry. -/
inductive RepoKind
  | remote (url rev path : String) (manifest : List ManifestHook)
  | localRepo (hooks : List ManifestHook)
  | metaRepo (hooks : List ManifestHook)
deriving DecidableEq

/-- A resolved repo handle (`Arc<Repo>`).  `instanceId` models the pointer
identity of the `Arc` allocation: each `Arc::new` in the modelled code is
stamped with a fresh id, so two handles are the same shared instance
exactly when their `instanceId`s coincide. -/
structure Repo where
  kind : RepoKind
  instanceId : Nat
deriving DecidableEq

/-- Modelled from the spec: `Repo::get_hook` (in `hook.rs`, not among the
sources under verification) looks the hook identifier up in the set of hook
definitions the repo advertises — the remote manifest, or the inline hook
list for local/meta repos. -/
def Repo.manifest : Repo → List ManifestHook
  | ⟨.remote _ _ _ m, _⟩ => m
  | ⟨.localRepo hs, _⟩ => hs
  | ⟨.metaRepo hs, _⟩ => hs

/-- Modelled from the spec: hook lookup by identifier in a repo's
advertised manifest. -/
def getHook (repo : Repo) (id : String) : Option ManifestHook :=
  repo.manifest.find? (fun h => h.id == id)

/-- Modelled from the spec: the `Display` rendering of a resolved repo
(`hook.rs`), used to name the owning repo in `HookNotFound`. -/
def repoDisplay (repo : Repo) : String :=
  match repo.kind with
  | .remote url rev _ _ => url ++ "@" ++ rev
  | .localRepo _ => "local"
  | .metaRepo _ => "meta"

/-- One discovered project (`Project` in `workspace.rs`). -/
structure Project where
  root : RelPath
  configPath : RelPath
  relativePath : RelPath
  idx : Nat
  depth : Nat
  config : Config
  repos : List Repo
deriving DecidableEq

/-- `Project::with_idx`. -/
def withIdx (p : Project) (i : Nat) : Project :=
  ⟨p.root, p.configPath, p.relativePath, i, p.depth, p.config, p.repos⟩

/-- Assignment of the resolved repos list (`self.repos = repos` /
`Arc::get_mut(project).unwrap().repos = repos`). -/
def setRepos (p : Project) (rs : List Repo) : Project :=
  ⟨p.root, p.configPath, p.relativePath, p.idx, p.depth, p.config, rs⟩

/-- The error enum of `workspace.rs`; error payloads of the wrapped
collaborator errors are reduced to message strings. -/
inductive Error
  | config (msg : String)
  | hook (msg : String)
  | git (msg : String)
  | missingPreCommitConfig
  | hookNotFound (hook : String) (repo : String)
  | store (repo : String) (error : String)
deriving DecidableEq

/-- A fully assembled hook, reduced to the fields the workspace code
itself determines: the resolved identifier and the sequence index the
builder was given (`HookBuilder::new(.., hooks.len())`). -/
structure Hook where
  id : String
  idx : Nat
deriving DecidableEq

/-- A resolved workspace: root plus the ordered project sequence. -/
structure Workspace where
  root : RelPath
  projects : List Project
deriving DecidableEq

/-- The comparator of `Workspace::discover`'s post-walk sort:
`b.depth().cmp(&a.depth()).then_with(|| a.relative_path.cmp(&b.relative_path))`. -/
def projectCmp (a b : Project) : Ordering :=
  (compare b.depth a.depth).then (cmpList cmpStr a.relativePath b.relativePath)

/-- The ordering relation induced by `projectCmp` (`a` may come before
`b`). -/
def projLe (a b : Project) : Prop := projectCmp a b ≠ Ordering.gt

instance : DecidableRel projLe := fun _ _ => instDecidableNot

/-- The sorted-position relation stated by the spec: deeper first, ties by
relative path ascending. -/
def projBefore (a b : Project) : Prop :=
  b.depth < a.depth ∨
    (b.depth = a.depth ∧ cmpList cmpStr a.relativePath b.relativePath ≠ Ordering.gt)

/-- The post-walk sort of `Workspace::discover` (`projects.sort_by(..)`,
a stable sort with the comparator `projectCmp`). -/
def sortProjects (ps : List Project) : List Project :=
  List.insertionSort projLe ps

/-- Dense index assignment after the sort
(`for (idx, project) in projects.iter_mut().enumerate()`). -/
def assignIdxFrom (n : Nat) : List Project → List Project
  | [] => []
  | p :: ps => withIdx p n :: assignIdxFrom (n + 1) ps

/-- Sort then stamp each project with its position. -/
def sortAndIndex (ps : List Project) : List Project :=
  assignIdxFrom 0 (sortProjects ps)

/-- The tail of `Workspace::discover` after the parallel walk: the shared
accumulator holds either the first fatal configuration error or the
collected projects; the projects are sorted and indexed and the workspace
returned.  There is no emptiness check on the success path (only a
`debug_assert!`). -/
def discoverPostWalk (root : RelPath) (walked : Except String (List Project)) :
    Except Error Workspace :=
  match walked with
  | .error e => .error (.config e)
  | .ok ps => .ok ⟨root, sortAndIndex ps⟩

/-- `Workspace::find_root` / `Project::discover` upward search: the
ancestors of the starting directory up to the version-control root, first
one containing the configuration file wins; none found is
`MissingPreCommitConfig`. -/
def findRoot (hasConfig : RelPath → Bool) (ancestors : List RelPath) :
    Except Error RelPath :=
  match ancestors.find? hasConfig with
  | some p => .ok p
  | none => .error .missingPreCommitConfig

/-- The fetch await loop of `init_repos`
(`while let Some(result) = tasks.next().await { result?; }`): given the
task results in completion order, propagate the first failure.  The second
component counts how many task results were awaited before the loop
returned. -/
def drainLoop : List (Except Error Unit) → Except Error Unit × Nat
  | [] => (.ok (), 0)
  | .error e :: _ => (.error e, 1)
  | .ok _ :: rs => ((drainLoop rs).1, (drainLoop rs).2 + 1)

/-- Modelled from the spec: the display rendering of a path by the `fs`
collaborator (`user_display`), reduced to joining components. -/
def displayPath (p : RelPath) : String := String.intercalate "/" p

/-- The single-unstaged-file message of `Workspace::check_configs_staged`. -/
def singleMessage (f : RelPath) : String :=
  "prek configuration file is not staged, run `git add " ++ displayPath f ++
    "` to stage it"

/-- The multi-file message of `Workspace::check_configs_staged`; the paths
appear in the order of the list. -/
def multiMessage (fs : List RelPath) : String :=
  "The following configuration files are not staged, `git add` them first:\n" ++
    String.intercalate "\n" (fs.map (fun p => "  " ++ displayPath p))

/-- Outcome of the staging pre-flight check: success with no output, or a
fatal message in one of the two forms. -/
inductive StagedResult
  | ok
  | failSingle (message : String)
  | failMulti (message : String)
deriving DecidableEq

/-- `Workspace::check_configs_staged`, as a function of the subset of
configuration paths the version-control collaborator reports as not
staged: each is joined onto the git root, then the shape of the list picks
the message form. -/
def checkConfigsStaged (gitRoot : RelPath) (nonStaged : List RelPath) :
    StagedResult :=
  match nonStaged.map (fun p => gitRoot ++ p) with
  | [] => .ok
  | [f] => .failSingle (singleMessage f)
  | fs => .failMulti (multiMessage fs)

/-- Modelled from the spec: one optional hook field merged across the
three layers handled by `HookBuilder::update` / `HookBuilder::combine`
(`hook.rs`, not among the sources under verification).  The per-hook
override wins where it sets the field, otherwise the project-wide default
where set, otherwise the base definition's value; an absent field in a
layer never replaces a prior layer's value. -/
def mergeField (base ov df : Option α) : Option α :=
  match ov with
  | some v => some v
  | none =>
    match df with
    | some v => some v
    | none => base

/-- Optional configuration fields of a hook definition, for the layered
merge (a representative subset of the hook fields). -/
structure HookFields where
  name : Option String
  entry : Option String
  language : Option String
  stages : Option (List String)
deriving DecidableEq

/-- Modelled from the spec: field-by-field layered merge of a base hook
definition, a per-hook override, and the project-wide defaults. -/
def mergeHookFields (base ov df : HookFields) : HookFields :=
  ⟨mergeField base.name ov.name df.name,
   mergeField base.entry ov.entry df.entry,
   mergeField base.language ov.language df.language,
   mergeField base.stages ov.stages df.stages⟩

/-- The `zip_eq` pairing of `internal_init_hooks`: pairs two sequences
positionally and fails (models the `itertools::zip_eq` panic) when the
lengths differ. -/
def zipEqL : List α → List β → Option (List (α × β))
  | [], [] => some []
  | a :: as, b :: bs => (zipEqL as bs).map (fun ps => (a, b) :: ps)
  | _, _ => none

/-- Resolution of the hook references declared under a remote repo entry,
in declaration order: each id is looked up in the resolved repo's
manifest; the first absent id aborts with `HookNotFound` naming the id and
the owning repo. -/
def lookupHookIds (repo : Repo) : List HookRef → Except Error (List String)
  | [] => .ok []
  | ref :: rest =>
    match getHook repo ref.id with
    | none => .error (.hookNotFound ref.id (repoDisplay repo))
    | some _ => (lookupHookIds repo rest).map (fun ids => ref.id :: ids)

/-- The ordered hook identifiers contributed by one repo entry of
`internal_init_hooks`: remote entries resolve their references against the
manifest (and may fail), local and meta entries take their inline hook
definitions as-is (the meta normalization `ManifestHook::from` keeps the
identifier). -/
def repoHookIds : ConfigRepo → Repo → Except Error (List String)
  | .Remote rc, repo => lookupHookIds repo rc.hooks
  | .Local hs, _ => .ok (hs.map (fun h => h.id))
  | .Meta hs, _ => .ok (hs.map (fun h => h.id))

/-- Appending the built hooks of one repo entry to the project-local
accumulator: each new hook receives the index `hooks.len()` at the moment
it is built (`HookBuilder::new(.., hooks.len())`). -/
def appendHooks (acc : List Hook) : List String → List Hook
  | [] => acc
  | id :: ids => appendHooks (acc ++ [⟨id, acc.length⟩]) ids

/-- The body of `Project::internal_init_hooks`: walk the positional pairs
of config repo entries and resolved repos, in declaration order, growing
the project-local hook list; the first resolution error aborts. -/
def buildProjectHooks : List (ConfigRepo × Repo) → List Hook → Except Error (List Hook)
  | [], acc => .ok acc
  | (cfg, repo) :: rest, acc =>
    match repoHookIds cfg repo with
    | .error e => .error e
    | .ok ids => buildProjectHooks rest (appendHooks acc ids)

/-- `Project::internal_init_hooks`: `zip_eq` the config entries with the
resolved repos (`none` models the length-mismatch panic), then build the
project's hook list starting from an empty accumulator. -/
def internalInitHooks (p : Project) : Option (Except Error (List Hook)) :=
  (zipEqL p.config.repos p.repos).map (fun pairs => buildProjectHooks pairs [])

/-- The loop of `Workspace::init_hooks`: over the sorted projects in
order, run `internal_init_hooks` and extend the global list; the first
error propagates. -/
def initHooksW : List Project → Option (Except Error (List Hook))
  | [] => some (.ok [])
  | p :: rest =>
    match internalInitHooks p with
    | none => none
    | some (.error e) => some (.error e)
    | some (.ok l) =>
      match initHooksW rest with
      | none => none
      | some (.error e) => some (.error e)
      | some (.ok ls) => some (.ok (l ++ ls))

/-- All repo entries of all projects, in workspace order then declaration
order (`self.projects.iter().flat_map(|proj| proj.config.repos.iter())`). -/
def allConfigRepos (ps : List Project) : List ConfigRepo :=
  ps.flatMap (fun p => p.config.repos)

/-- The deduplicating filter of `Workspace::init_repos`: keep each remote
entry whose (URL, revision) identity has not been seen, in first-occurrence
order; local and meta entries never enter the fetch set. -/
def dedupRemotes : List ConfigRepo → List RepoId → List RemoteRepoConfig
  | [], _ => []
  | ConfigRepo.Remote r :: rest, seen =>
    if remoteKey r ∈ seen then dedupRemotes rest seen
    else r :: dedupRemotes rest (remoteKey r :: seen)
  | _ :: rest, seen => dedupRemotes rest seen

/-- The result of a successful store clone: the checkout path, plus the
manifest the checkout advertises (consulted later by `get_hook`). -/
structure CloneOk where
  path : String
  manifest : List ManifestHook
deriving DecidableEq

/-- The external store collaborator, reduced to its `clone_repo`
operation: a deterministic function of the (URL, revision) identity. -/
structure StoreModel where
  clone : String → String → Except String CloneOk

/-- The fetch pass of `Workspace::init_repos` over the deduplicated remote
set: clone each identity once, wrap the result in a freshly allocated
shared `Repo` (stamped with a fresh `instanceId`), and record it in the
result map keyed by the identity.  A clone failure is wrapped with the
originating URL as `Error::Store`.  Completion order of the bounded
concurrent fetches does not affect the resulting map, which is keyed by
identity, so the map is modelled in dedup order. -/
def clonePass (store : StoreModel) : List RemoteRepoConfig → Nat →
    Except Error (List (RepoId × Repo))
  | [], _ => .ok []
  | r :: rest, n =>
    match store.clone r.repo r.rev with
    | .error e => .error (.store r.repo e)
    | .ok c =>
      match clonePass store rest (n + 1) with
      | .error e => .error e
      | .ok m => .ok ((remoteKey r, ⟨.remote r.repo r.rev c.path c.manifest, n⟩) :: m)

/-- Lookup in the shared result map by identity
(`remote_repos.get(repo)`). -/
def lookupRepo (m : List (RepoId × Repo)) (k : RepoId) : Option Repo :=
  (m.find? (fun e => decide (e.1 = k))).map (fun e => e.2)

/-- The second pass of `Workspace::init_repos` for one project: rebuild
its repos list positionally from its config entries; remote entries are
looked up in the shared map (`none` models the `expect("repo not found")`
panic), local and meta entries are instantiated fresh (a new allocation,
hence a fresh `instanceId` threaded through `n`). -/
def buildRepos (m : List (RepoId × Repo)) : List ConfigRepo → Nat →
    Option (List Repo × Nat)
  | [], n => some ([], n)
  | ConfigRepo.Remote r :: rest, n =>
    match lookupRepo m (remoteKey r) with
    | none => none
    | some repo =>
      match buildRepos m rest n with
      | none => none
      | some (rs, n') => some (repo :: rs, n')
  | ConfigRepo.Local hs :: rest, n =>
    match buildRepos m rest (n + 1) with
    | none => none
    | some (rs, n') => some (⟨.localRepo hs, n⟩ :: rs, n')
  | ConfigRepo.Meta hs :: rest, n =>
    match buildRepos m rest (n + 1) with
    | none => none
    | some (rs, n') => some (⟨.metaRepo hs, n⟩ :: rs, n')

/-- The second pass over all projects, assigning each its rebuilt repos
list. -/
def distributeRepos (m : List (RepoId × Repo)) : List Project → Nat →
    Option (List Project × Nat)
  | [], n => some ([], n)
  | p :: ps, n =>
    match buildRepos m p.config.repos n with
    | none => none
    | some (rs, n') =>
      match distributeRepos m ps n' with
      | none => none
      | some (ps', n'') => some (setRepos p rs :: ps', n'')

/-- `Workspace::init_repos`: deduplicate the remote entries of all
projects, clone each unique identity once, then distribute the shared
handles back positionally.  The outer `Option` being `none` models the
`expect("repo not found")` panic (proved unreachable below). -/
def initReposW (store : StoreModel) (ps : List Project) :
    Except Error (Option (List Project)) :=
  match clonePass store (dedupRemotes (allConfigRepos ps) []) 0 with
  | .error e => .error e
  | .ok m =>
    match distributeRepos m ps (dedupRemotes (allConfigRepos ps) []).length with
    | none => .ok none
    | some (ps', _) => .ok (some ps')

/-- The (URL, revision) identities of all remote entries declared across
the given projects, with multiplicity. -/
def declaredRemoteKeys (ps : List Project) : List RepoId :=
  (allConfigRepos ps).filterMap
    (fun c => match c with | .Remote r => some (remoteKey r) | _ => none)

/-- The identities passed to the store's clone operation by
`Workspace::init_repos`, in invocation order: one call per element of the
deduplicated remote set. -/
def cloneCallKeys (ps : List Project) : List RepoId :=
  (dedupRemotes (allConfigRepos ps) []).map remoteKey

/-- The number of clone invocations issued for one identity. -/
def countKey (k : RepoId) : List RepoId → Nat
  | [] => 0
  | k' :: rest => (if k' = k then 1 else 0) + countKey k rest

mutual
/-- A directory entry of the discovery walk: a directory with children, or
a plain file. -/
inductive Entry
  | dir (name : String) (children : EntryList)
  | file (name : String)
/-- A sibling list of walk entries. -/
inductive EntryList
  | nil
  | cons (e : Entry) (es : EntryList)
end

/-- Whether the walk descends into a root-relative path: with no selectors
configured every path matches; otherwise the configured predicate decides
(`selectors.matches_path(relative_path)`). -/
def matchesSel (sel : Option (RelPath → Bool)) (p : RelPath) : Bool :=
  match sel with
  | none => true
  | some s => s p

mutual
/-- The per-entry callback of `Workspace::discover`'s parallel walk, for
an entry at depth > 0 under parent directory `parentPath`: a directory
whose root-relative path fails the selector is skipped with its whole
subtree (`WalkState::Skip`); a file named `CONFIG_FILE` contributes a
project whose relative path is its parent directory.  The walk's parallel
traversal order is irrelevant here: membership in the result is what the
claims quantify over. -/
def visitEntry (sel : Option (RelPath → Bool)) (parentPath : RelPath) :
    Entry → List RelPath
  | .file name => if name = CONFIG_FILE then [parentPath] else []
  | .dir name children =>
    if matchesSel sel (parentPath ++ [name]) then
      visitEntries sel (parentPath ++ [name]) children
    else []
/-- Walk a sibling list of entries under a common parent. -/
def visitEntries (sel : Option (RelPath → Bool)) (parentPath : RelPath) :
    EntryList → List RelPath
  | .nil => []
  | .cons e es => visitEntry sel parentPath e ++ visitEntries sel parentPath es
end

/-- The whole walk from the workspace root: the root directory itself is
visited at depth 0 and is never subjected to the selector check
(`entry.depth() > 0`); its children are walked as entries. -/
def walkRoot (sel : Option (RelPath → Bool)) (es : EntryList) : List RelPath :=
  visitEntries sel [] es

/-- Helper: the three-case behaviour of a single merged field. -/
theorem mergeField_spec (base ov df : Option α) :
    (∀ v, ov = some v → mergeField base ov df = some v) ∧
    (ov = none → ∀ v, df = some v → mergeField base ov df = some v) ∧
    (ov = none → df = none → mergeField base ov df = base) := by
  refine ⟨?_, ?_, ?_⟩
  · intro v h; subst h; rfl
  · intro h v h'; subst h; subst h'; rfl
  · intro h h'; subst h; subst h'; rfl

/-- Claim C6: for every hook assembled from a base definition, a per-hook
override, and a project-wide default, each field of the merged hook equals
the override's value wherever the override sets the field, else the
default's value where the default sets it, else the base's value; absent
fields in a layer never replace prior layers' values. -/
theorem merge_precedence (b o d : HookFields) :
    ((∀ v, o.name = some v → (mergeHookFields b o d).name = some v) ∧
     (o.name = none → ∀ v, d.name = some v → (mergeHookFields b o d).name = some v) ∧
     (o.name = none → d.name = none → (mergeHookFields b o d).name = b.name)) ∧
    ((∀ v, o.entry = some v → (mergeHookFields b o d).entry = some v) ∧
     (o.entry = none → ∀ v, d.entry = some v → (mergeHookFields b o d).entry = some v) ∧
     (o.entry = none → d.entry = none → (mergeHookFields b o d).entry = b.entry)) ∧
    ((∀ v, o.language = some v → (mergeHookFields b o d).language = some v) ∧
     (o.language = none → ∀ v, d.language = some v → (mergeHookFields b o d).language = some v) ∧
     (o.language = none → d.language = none → (mergeHookFields b o d).language = b.language)) ∧
    ((∀ v, o.stages = some v → (mergeHookFields b o d).stages = some v) ∧
     (o.stages = none → ∀ v, d.stages = some v → (mergeHookFields b o d).stages = some v) ∧
     (o.stages = none → d.stages = none → (mergeHookFields b o d).stages = b.stages)) :=
  ⟨mergeField_spec b.name o.name d.name,
   mergeField_spec b.entry o.entry d.entry,
   mergeField_spec b.language o.language d.language,
   mergeField_spec b.stages o.stages d.stages⟩

/-- Witness for C6: the merge at concrete layers, exercising all three
cases of the field precedence. -/
theorem merge_precedence_witness :
    (mergeHookFields ⟨some "base-name", some "base-entry", some "base-lang", none⟩
      ⟨some "ov-name", none, none, none⟩
      ⟨some "df-name", some "df-entry", none, none⟩).name = some "ov-name" ∧
    (mergeHookFields ⟨some "base-name", some "base-entry", some "base-lang", none⟩
      ⟨some "ov-name", none, none, none⟩
      ⟨some "df-name", some "df-entry", none, none⟩).entry = some "df-entry" ∧
    (mergeHookFields ⟨some "base-name", some "base-entry", some "base-lang", none⟩
      ⟨some "ov-name", none, none, none⟩
      ⟨some "df-name", some "df-entry", none, none⟩).language = some "base-lang" :=
  ⟨(merge_precedence _ _ _).1.1 "ov-name" rfl,
   (merge_precedence _ _ _).2.1.2.1 rfl "df-entry" rfl,
   (merge_precedence _ _ _).2.2.1.2.2 rfl rfl⟩

/-- Counterexample for C4: a walk that completes successfully with zero
projects yields `Ok` with an empty project sequence, not the
missing-configuration error (the non-emptiness is only a
`debug_assert!`). -/
theorem discover_empty_walk_counterexample :
    discoverPostWalk [] (Except.ok []) = Except.ok ⟨[], []⟩ ∧
    discoverPostWalk [] (Except.ok []) ≠ Except.error Error.missingPreCommitConfig := by
  exact ⟨rfl, by simp [discoverPostWalk]⟩

/-- Claim C4 (amended): when the parallel walk completes with zero
projects, `Workspace::discover` returns a workspace with an empty project
sequence (non-emptiness is only debug-asserted); `MissingPreCommitConfig`
arises from the upward ancestor search (`find_root` / `Project::discover`)
when no ancestor holds the configuration file. -/
theorem discover_empty_walk_amended (root : RelPath)
    (hasConfig : RelPath → Bool) (ancestors : List RelPath)
    (h : ∀ p ∈ ancestors, hasConfig p = false) :
    discoverPostWalk root (Except.ok []) = Except.ok ⟨root, []⟩ ∧
    findRoot hasConfig ancestors = Except.error Error.missingPreCommitConfig := by
  constructor
  · rfl
  · have : ancestors.find? hasConfig = none := by
      rw [List.find?_eq_none]
      intro x hx
      simp [h x hx]
    simp [findRoot, this]

/-- Witness for C4's amended theorem at a concrete ancestor chain. -/
theorem discover_empty_walk_amended_witness :
    discoverPostWalk ["ws"] (Except.ok []) = Except.ok ⟨["ws"], []⟩ ∧
    findRoot (fun _ => false) [["ws"], []] = Except.error Error.missingPreCommitConfig :=
  discover_empty_walk_amended ["ws"] (fun _ => false) [["ws"], []]
    (by intro p _; rfl)

/-- Counterexample for C5: with task results completing as a failure
followed by a success, the await loop reports the failure after consuming
only the first result — it does not drain the remaining outstanding task
results before reporting. -/
theorem fetch_failure_drain_counterexample :
    drainLoop [Except.error (Error.store "r1" "boom"), Except.ok ()] =
      (Except.error (Error.store "r1" "boom"), 1) ∧
    (drainLoop [Except.error (Error.store "r1" "boom"), Except.ok ()]).2 <
      [Except.error (Error.store "r1" "boom"), Except.ok ()].length := by
  exact ⟨rfl, by decide⟩

/-- Claim C5 (amended): the resolver returns the first observed failure
immediately: it awaits exactly the successful results preceding the first
failure plus the failure itself, and never awaits the results of the
remaining scheduled fetches (the task stream, and with it the in-flight
futures, is dropped at that point). -/
theorem fetch_failure_first_error_amended
    (pre : List (Except Error Unit)) (e : Error) (post : List (Except Error Unit))
    (hpre : ∀ r ∈ pre, r = Except.ok ()) :
    drainLoop (pre ++ Except.error e :: post) = (Except.error e, pre.length + 1) := by
  induction pre with
  | nil => rfl
  | cons r rs ih =>
    have hr : r = Except.ok () := hpre r (by simp)
    subst hr
    have := ih (fun x hx => hpre x (by simp [hx]))
    simp [drainLoop, this]

/-- Witness for C5's amended theorem at a concrete completion order. -/
theorem fetch_failure_first_error_amended_witness :
    drainLoop [Except.ok (), Except.error (Error.store "r2" "gone"), Except.ok ()] =
      (Except.error (Error.store "r2" "gone"), 2) :=
  fetch_failure_first_error_amended [Except.ok ()] (Error.store "r2" "gone")
    [Except.ok ()] (by intro r hr; simpa using hr)

/-- Counterexample for C9: with two unstaged paths reported by the
version-control collaborator in non-alphabetical order, the emitted
multi-file listing keeps the collaborator's order — it is not sorted
alphabetically by the validator (`"b"` sorts after `"a"` yet is listed
first). -/
theorem staging_gate_counterexample :
    checkConfigsStaged [] [["b"], ["a"]] =
      StagedResult.failMulti (multiMessage [["b"], ["a"]]) ∧
    multiMessage [["b"], ["a"]] ≠ multiMessage [["a"], ["b"]] ∧
    cmpStr "b" "a" = Ordering.gt := by
  refine ⟨rfl, by decide, by decide⟩

/-- Claim C9 (amended): when the collaborator reports no unstaged
configuration file the check succeeds with no output; a single unstaged
file yields the single-file message naming the file (joined to the git
root) and the exact `git add` command; two or more yield the multi-file
listing, with the paths joined to the git root in the collaborator's
reported order (not sorted by the validator). -/
theorem staging_gate_amended (root : RelPath) :
    checkConfigsStaged root [] = StagedResult.ok ∧
    (∀ f, checkConfigsStaged root [f] =
      StagedResult.failSingle (singleMessage (root ++ f))) ∧
    (∀ a b rest, checkConfigsStaged root (a :: b :: rest) =
      StagedResult.failMulti (multiMessage ((a :: b :: rest).map (fun p => root ++ p)))) := by
  refine ⟨rfl, fun f => rfl, fun a b rest => rfl⟩

/-- Helper: resolving hook references fails at the first reference whose
id is absent from the repo's manifest, with `HookNotFound` naming that id
and the owning repo. -/
theorem lookupHookIds_error (repo : Repo) (refPre : List HookRef) (ref : HookRef)
    (refPost : List HookRef)
    (hfound : ∀ r ∈ refPre, (getHook repo r.id).isSome = true)
    (hmiss : getHook repo ref.id = none) :
    lookupHookIds repo (refPre ++ ref :: refPost) =
      Except.error (Error.hookNotFound ref.id (repoDisplay repo)) := by
  induction refPre with
  | nil => simp [lookupHookIds, hmiss]
  | cons r rs ih =>
    have hr : (getHook repo r.id).isSome = true := hfound r (by simp)
    obtain ⟨h, hh⟩ := Option.isSome_iff_exists.1 hr
    have ih' := ih (fun x hx => hfound x (by simp [hx]))
    simp [lookupHookIds, hh, ih', Except.map]

/-- Helper: when all earlier repo entries of a project resolve their hook
references and a later entry fails, the whole per-project assembly fails
with that entry's error, regardless of the accumulator or of any entries
after the failing one. -/
theorem buildProjectHooks_error (pre : List (ConfigRepo × Repo)) (c : ConfigRepo)
    (repo : Repo) (post : List (ConfigRepo × Repo)) (acc : List Hook) (e : Error)
    (hpre : ∀ pr ∈ pre, ∃ ids, repoHookIds pr.1 pr.2 = Except.ok ids)
    (hc : repoHookIds c repo = Except.error e) :
    buildProjectHooks (pre ++ (c, repo) :: post) acc = Except.error e := by
  induction pre generalizing acc with
  | nil => simp [buildProjectHooks, hc]
  | cons pr prs ih =>
    obtain ⟨ids, hids⟩ := hpre pr (by simp)
    simp only [List.cons_append, buildProjectHooks]
    rw [hids]
    exact ih _ (fun x hx => hpre x (List.mem_cons_of_mem pr hx))

/-- Claim C8: a remote repo entry declaring a hook id absent from the
resolved repo's manifest makes hook assembly fail with `HookNotFound`
naming the id and the owning repo (the failure aborts the assembly, so no
hook of the failing or of any later repo entry is produced — the result
carries no hook list at all, whatever comes after the failing reference);
the error is a distinct constructor from the fetch/store error. -/
theorem hook_not_found (p : Project) (pairs pre post : List (ConfigRepo × Repo))
    (rc : RemoteRepoConfig) (repo : Repo)
    (hzip : zipEqL p.config.repos p.repos = some pairs)
    (hsplit : pairs = pre ++ (ConfigRepo.Remote rc, repo) :: post)
    (hpre : ∀ pr ∈ pre, ∃ ids, repoHookIds pr.1 pr.2 = Except.ok ids)
    (refPre refPost : List HookRef) (ref : HookRef)
    (hhooks : rc.hooks = refPre ++ ref :: refPost)
    (hfound : ∀ r ∈ refPre, (getHook repo r.id).isSome = true)
    (hmiss : getHook repo ref.id = none) :
    internalInitHooks p =
      some (Except.error (Error.hookNotFound ref.id (repoDisplay repo))) ∧
    ∀ r e, Error.hookNotFound ref.id (repoDisplay repo) ≠ Error.store r e := by
  constructor
  · have hfail : repoHookIds (ConfigRepo.Remote rc) repo =
        Except.error (Error.hookNotFound ref.id (repoDisplay repo)) := by
      simp only [repoHookIds, hhooks]
      exact lookupHookIds_error repo refPre ref refPost hfound hmiss
    have hb := buildProjectHooks_error pre (ConfigRepo.Remote rc) repo post []
      (Error.hookNotFound ref.id (repoDisplay repo)) hpre hfail
    simp [internalInitHooks, hzip, hsplit, hb]
  · intro r e h
    exact Error.noConfusion h

/-- Witness for C8: a project whose single remote entry references the id
`missing`, absent from the resolved repo's manifest. -/
theorem hook_not_found_witness :
    internalInitHooks
      ⟨[], [], [], 0, 1,
       ⟨[ConfigRepo.Remote ⟨"url", "rev", [⟨"missing"⟩]⟩]⟩,
       [⟨RepoKind.remote "url" "rev" "path" [⟨"present"⟩], 0⟩]⟩ =
      some (Except.error (Error.hookNotFound "missing" "url@rev")) :=
  (hook_not_found
    ⟨[], [], [], 0, 1,
     ⟨[ConfigRepo.Remote ⟨"url", "rev", [⟨"missing"⟩]⟩]⟩,
     [⟨RepoKind.remote "url" "rev" "path" [⟨"present"⟩], 0⟩]⟩
    [(ConfigRepo.Remote ⟨"url", "rev", [⟨"missing"⟩]⟩,
      ⟨RepoKind.remote "url" "rev" "path" [⟨"present"⟩], 0⟩)]
    [] []
    ⟨"url", "rev", [⟨"missing"⟩]⟩
    ⟨RepoKind.remote "url" "rev" "path" [⟨"present"⟩], 0⟩
    rfl rfl (by intro pr h; exact absurd h (by simp))
    [] [] ⟨"missing"⟩ rfl
    (by intro r h; exact absurd h (by simp))
    rfl).1

/-- Helper: appending the hooks of one repo entry stamps them with the
consecutive indices continuing from the accumulator's length. -/
theorem appendHooks_map_idx (ids : List String) (acc : List Hook) :
    (appendHooks acc ids).map Hook.idx =
      acc.map Hook.idx ++ List.range' acc.length ids.length 1 := by
  induction ids generalizing acc with
  | nil => simp [appendHooks]
  | cons id ids ih =>
    rw [appendHooks, ih]
    simp [List.range'_succ, List.append_assoc]

/-- Helper: the length of the accumulator grows by the number of appended
hook ids. -/
theorem appendHooks_length (ids : List String) (acc : List Hook) :
    (appendHooks acc ids).length = acc.length + ids.length := by
  have h := congrArg List.length (appendHooks_map_idx ids acc)
  simpa using h

/-- Helper: a successful per-project assembly extends the accumulator's
index sequence by a consecutive run starting at the accumulator's
length. -/
theorem buildProjectHooks_map_idx (pairs : List (ConfigRepo × Repo))
    (acc res : List Hook) (h : buildProjectHooks pairs acc = Except.ok res) :
    ∃ n, res.map Hook.idx = acc.map Hook.idx ++ List.range' acc.length n 1 := by
  induction pairs generalizing acc with
  | nil =>
    refine ⟨0, ?_⟩
    have : acc = res := by simpa [buildProjectHooks] using h
    simp [this]
  | cons pr rest ih =>
    rcases pr with ⟨c, repo⟩
    rcases hc : repoHookIds c repo with e | ids
    · rw [buildProjectHooks, hc] at h
      exact absurd h (by simp)
    · rw [buildProjectHooks, hc] at h
      obtain ⟨n, hn⟩ := ih (appendHooks acc ids) h
      refine ⟨n + ids.length, ?_⟩
      rw [hn, appendHooks_map_idx, appendHooks_length]
      rw [List.append_assoc]
      congr 1
      have h2 := List.range'_append acc.length ids.length n 1
      rw [Nat.one_mul] at h2
      exact h2

/-- Helper: a project's successfully assembled hook list carries the
indices `0 .. k-1` in order. -/
theorem internalInitHooks_indices (p : Project) (l : List Hook)
    (h : internalInitHooks p = some (Except.ok l)) :
    l.map Hook.idx = List.range l.length := by
  rcases hz : zipEqL p.config.repos p.repos with _ | pairs
  · rw [internalInitHooks, hz] at h
    exact absurd h (by simp)
  · rw [internalInitHooks, hz] at h
    have hb : buildProjectHooks pairs [] = Except.ok l := by simpa using h
    obtain ⟨n, hn⟩ := buildProjectHooks_map_idx pairs [] l hb
    have hlen : l.length = n := by
      have := congrArg List.length hn
      simpa using this
    rw [hn, hlen, List.range_eq_range']
    simp

/-- Counterexample for C1: a workspace of two projects with one hook each
yields the concatenated hook list with indices `[0, 0]` — the counter is
not a single global one, so the indices are neither `0..Σk-1` nor strictly
increasing. -/
theorem global_index_counterexample :
    initHooksW
      [⟨[], [], ["p1"], 0, 2, ⟨[ConfigRepo.Local [⟨"h1"⟩]]⟩,
        [⟨RepoKind.localRepo [⟨"h1"⟩], 0⟩]⟩,
       ⟨[], [], [], 0, 1, ⟨[ConfigRepo.Local [⟨"h2"⟩]]⟩,
        [⟨RepoKind.localRepo [⟨"h2"⟩], 1⟩]⟩] =
      some (Except.ok [⟨"h1", 0⟩, ⟨"h2", 0⟩]) ∧
    ([(⟨"h1", 0⟩ : Hook), ⟨"h2", 0⟩].map Hook.idx ≠ List.range 2) ∧
    ¬ List.Chain' (fun a b => a < b) ([(⟨"h1", 0⟩ : Hook), ⟨"h2", 0⟩].map Hook.idx) := by
  refine ⟨rfl, by decide, by simp [List.chain'_cons]⟩

/-- Claim C1 (amended): `Workspace::init_hooks` concatenates the
per-project hook lists in sorted project order, but each project's hooks
are indexed by a per-project counter restarting at 0 (`hooks.len()` of the
project-local list), so the project producing k hooks carries indices
`0..k-1` in declaration order — the counter is not shared globally across
projects. -/
theorem per_project_hook_indices (ps : List Project) (hs : List Hook)
    (h : initHooksW ps = some (Except.ok hs)) :
    ∃ parts : List (List Hook),
      hs = parts.flatten ∧
      List.Forall₂ (fun p l => internalInitHooks p = some (Except.ok l)) ps parts ∧
      ∀ l ∈ parts, l.map Hook.idx = List.range l.length := by
  induction ps generalizing hs with
  | nil =>
    refine ⟨[], ?_, List.Forall₂.nil, by simp⟩
    have : hs = [] := by simpa [initHooksW] using h.symm
    simp [this]
  | cons p rest ih =>
    rcases hi : internalInitHooks p with _ | r
    · rw [initHooksW, hi] at h
      exact absurd h (by simp)
    · rcases r with e | l
      · rw [initHooksW, hi] at h
        exact absurd h (by simp)
      · rcases hr : initHooksW rest with _ | r2
        · rw [initHooksW, hi, hr] at h
          exact absurd h (by simp)
        · rcases r2 with e | ls
          · rw [initHooksW, hi, hr] at h
            exact absurd h (by simp)
          · rw [initHooksW, hi, hr] at h
            have hhs : hs = l ++ ls := by simpa using h.symm
            obtain ⟨parts, hflat, hfa, hidx⟩ := ih ls hr
            refine ⟨l :: parts, ?_, List.Forall₂.cons hi hfa, ?_⟩
            · simp [hhs, hflat]
            · intro x hx
              rcases List.mem_cons.1 hx with hx | hx
              · exact hx ▸ internalInitHooks_indices p l hi
              · exact hidx x hx

/-- Witness for C1's amended theorem: the two-project workspace from the
counterexample decomposes into the parts `[[idx 0], [idx 0]]`. -/
theorem per_project_hook_indices_witness :
    ∃ parts : List (List Hook),
      [(⟨"h1", 0⟩ : Hook), ⟨"h2", 0⟩] = parts.flatten ∧
      List.Forall₂ (fun p l => internalInitHooks p = some (Except.ok l))
        [⟨[], [], ["p1"], 0, 2, ⟨[ConfigRepo.Local [⟨"h1"⟩]]⟩,
          [⟨RepoKind.localRepo [⟨"h1"⟩], 0⟩]⟩,
         ⟨[], [], [], 0, 1, ⟨[ConfigRepo.Local [⟨"h2"⟩]]⟩,
          [⟨RepoKind.localRepo [⟨"h2"⟩], 1⟩]⟩] parts ∧
      ∀ l ∈ parts, l.map Hook.idx = List.range l.length :=
  per_project_hook_indices
    [⟨[], [], ["p1"], 0, 2, ⟨[ConfigRepo.Local [⟨"h1"⟩]]⟩,
      [⟨RepoKind.localRepo [⟨"h1"⟩], 0⟩]⟩,
     ⟨[], [], [], 0, 1, ⟨[ConfigRepo.Local [⟨"h2"⟩]]⟩,
      [⟨RepoKind.localRepo [⟨"h2"⟩], 1⟩]⟩]
    [⟨"h1", 0⟩, ⟨"h2", 0⟩] rfl

/-- Helper: `Ordering.then` yields `eq` exactly when both parts do. -/
theorem then_eq_eq (o p : Ordering) : o.then p = .eq ↔ o = .eq ∧ p = .eq := by
  cases o <;> simp [Ordering.then]

/-- Helper: `Ordering.then` avoids `gt` exactly when the first part is
`lt`, or ties and the second part avoids `gt`. -/
theorem then_ne_gt (o p : Ordering) :
    o.then p ≠ .gt ↔ o = .lt ∨ (o = .eq ∧ p ≠ .gt) := by
  cases o <;> simp [Ordering.then]

/-- Helper: `swap` distributes over `Ordering.then`. -/
theorem then_swap (o p : Ordering) : (o.then p).swap = o.swap.then p.swap := by
  cases o <;> rfl

/-- Helper: character comparison is reflected by equality. -/
theorem cmpChar_eq (a b : Char) (h : cmpChar a b = .eq) : a = b := by
  have h' : a.toNat = b.toNat := Nat.compare_eq_eq.1 h
  exact Char.eq_of_val_eq (by exact UInt32.toNat.inj h')

/-- Helper: character comparison swaps with argument order. -/
theorem cmpChar_swap (a b : Char) : (cmpChar a b).swap = cmpChar b a :=
  Nat.compare_swap _ _

/-- Helper: strict character comparison is transitive. -/
theorem cmpChar_lt_trans (a b c : Char) (h₁ : cmpChar a b = .lt)
    (h₂ : cmpChar b c = .lt) : cmpChar a c = .lt :=
  Nat.compare_eq_lt.2 (Nat.lt_trans (Nat.compare_eq_lt.1 h₁) (Nat.compare_eq_lt.1 h₂))

/-- Helper: lexicographic list comparison is reflected by equality, given
the element comparator is. -/
theorem cmpList_eq {cmp : α → α → Ordering}
    (heq : ∀ a b, cmp a b = .eq → a = b) :
    ∀ l₁ l₂, cmpList cmp l₁ l₂ = .eq → l₁ = l₂
  | [], [], _ => rfl
  | [], _ :: _, h => by simp [cmpList] at h
  | _ :: _, [], h => by simp [cmpList] at h
  | a :: as, b :: bs, h => by
    rw [cmpList, then_eq_eq] at h
    rw [heq a b h.1, cmpList_eq heq as bs h.2]

/-- Helper: lexicographic list comparison swaps with argument order, given
the element comparator does. -/
theorem cmpList_swap {cmp : α → α → Ordering}
    (hswap : ∀ a b, (cmp a b).swap = cmp b a) :
    ∀ l₁ l₂, (cmpList cmp l₁ l₂).swap = cmpList cmp l₂ l₁
  | [], [] => rfl
  | [], _ :: _ => rfl
  | _ :: _, [] => rfl
  | a :: as, b :: bs => by
    rw [cmpList, cmpList, then_swap, hswap, cmpList_swap hswap]

/-- Helper: the non-strict lexicographic order on lists is transitive,
given a lawful element comparator. -/
theorem cmpList_ne_gt_trans {cmp : α → α → Ordering}
    (heq : ∀ a b, cmp a b = .eq → a = b)
    (htrans : ∀ a b c, cmp a b = .lt → cmp b c = .lt → cmp a c = .lt) :
    ∀ l₁ l₂ l₃, cmpList cmp l₁ l₂ ≠ .gt → cmpList cmp l₂ l₃ ≠ .gt →
      cmpList cmp l₁ l₃ ≠ .gt
  | [], _, l₃, _, _ => by cases l₃ <;> simp [cmpList]
  | _ :: _, [], _, h₁, _ => by simp [cmpList] at h₁
  | _ :: _, _ :: _, [], _, h₂ => by simp [cmpList] at h₂
  | a :: as, b :: bs, c :: cs, h₁, h₂ => by
    rw [cmpList, then_ne_gt] at h₁ h₂ ⊢
    rcases h₁ with h₁ | ⟨h₁e, h₁r⟩
    · rcases h₂ with h₂ | ⟨h₂e, h₂r⟩
      · exact Or.inl (htrans a b c h₁ h₂)
      · exact Or.inl ((heq b c h₂e) ▸ h₁)
    · rcases h₂ with h₂ | ⟨h₂e, h₂r⟩
      · exact Or.inl ((heq a b h₁e) ▸ h₂)
      · refine Or.inr ⟨(heq a b h₁e) ▸ h₂e, ?_⟩
        exact cmpList_ne_gt_trans heq htrans as bs cs h₁r h₂r

/-- Helper: string comparison is reflected by equality. -/
theorem cmpStr_eq (a b : String) (h : cmpStr a b = .eq) : a = b := by
  have h' := cmpList_eq cmpChar_eq a.data b.data h
  cases a
  cases b
  exact congrArg String.mk (by simpa using h')

/-- Helper: string comparison swaps with argument order. -/
theorem cmpStr_swap (a b : String) : (cmpStr a b).swap = cmpStr b a :=
  cmpList_swap cmpChar_swap a.data b.data

/-- Helper: strict string comparison is transitive. -/
theorem cmpStr_lt_trans (a b c : String) (h₁ : cmpStr a b = .lt)
    (h₂ : cmpStr b c = .lt) : cmpStr a c = .lt := by
  have hng : cmpStr a c ≠ .gt :=
    cmpList_ne_gt_trans cmpChar_eq cmpChar_lt_trans a.data b.data c.data
      (by rw [show cmpList cmpChar a.data b.data = cmpStr a b from rfl, h₁]; simp)
      (by rw [show cmpList cmpChar b.data c.data = cmpStr b c from rfl, h₂]; simp)
  rcases h : cmpStr a c with _ | _ | _
  · rfl
  · have hac := cmpStr_eq a c h
    subst hac
    have hs := cmpStr_swap a b
    rw [h₁, h₂] at hs
    exact absurd hs (by decide)
  · exact absurd h hng

/-- Helper: the project comparator swaps with argument order. -/
theorem projectCmp_swap (a b : Project) :
    (projectCmp a b).swap = projectCmp b a := by
  rw [projectCmp, projectCmp, then_swap, Nat.compare_swap,
    cmpList_swap cmpStr_swap]

/-- Helper: the project comparator ties only on equal depth and equal
relative path. -/
theorem projectCmp_eq (a b : Project) (h : projectCmp a b = .eq) :
    a.depth = b.depth ∧ a.relativePath = b.relativePath := by
  rw [projectCmp, then_eq_eq] at h
  exact ⟨(Nat.compare_eq_eq.1 h.1).symm,
    cmpList_eq cmpStr_eq a.relativePath b.relativePath h.2⟩

/-- Helper: the sort relation coincides with the spec's deeper-first,
path-ascending relation. -/
theorem projLe_iff (a b : Project) : projLe a b ↔ projBefore a b := by
  rw [projLe, projectCmp, projBefore, then_ne_gt]
  constructor
  · rintro (h | ⟨he, hp⟩)
    · exact Or.inl (Nat.compare_eq_lt.1 h)
    · exact Or.inr ⟨Nat.compare_eq_eq.1 he, hp⟩
  · rintro (h | ⟨he, hp⟩)
    · exact Or.inl (Nat.compare_eq_lt.2 h)
    · exact Or.inr ⟨Nat.compare_eq_eq.2 he, hp⟩

instance : IsTrans Project projLe := by
  constructor
  intro a b c hab hbc
  rw [projLe_iff] at hab hbc ⊢
  rcases hab with h₁ | ⟨h₁e, h₁p⟩
  · rcases hbc with h₂ | ⟨h₂e, h₂p⟩
    · exact Or.inl (Nat.lt_trans h₂ h₁)
    · exact Or.inl (h₂e ▸ h₁)
  · rcases hbc with h₂ | ⟨h₂e, h₂p⟩
    · exact Or.inl (h₁e ▸ h₂)
    · exact Or.inr ⟨h₂e.trans h₁e,
        cmpList_ne_gt_trans cmpStr_eq cmpStr_lt_trans
          a.relativePath b.relativePath c.relativePath h₁p h₂p⟩

instance : IsTotal Project projLe := by
  constructor
  intro a b
  by_cases h : projectCmp a b = .gt
  · right
    rw [projLe, ← projectCmp_swap, h]
    simp [Ordering.swap]
  · exact Or.inl h

/-- Helper: two sorted lists that are permutations of each other are
equal, provided the order is antisymmetric on the elements involved. -/
theorem sorted_perm_eq :
    ∀ (l₁ l₂ : List Project), l₁.Perm l₂ →
      l₁.Pairwise projLe → l₂.Pairwise projLe →
      (∀ a ∈ l₁, ∀ b ∈ l₁, projLe a b → projLe b a → a = b) →
      l₁ = l₂
  | [], l₂, hp, _, _, _ => (hp.symm.eq_nil).symm
  | a :: t₁, [], hp, _, _, _ => by simpa using hp.eq_nil
  | a :: t₁, b :: t₂, hp, hs₁, hs₂, hanti => by
    have hab : a = b := by
      have ha2 : a ∈ b :: t₂ := hp.subset (List.mem_cons_self a t₁)
      have hb1 : b ∈ a :: t₁ := hp.symm.subset (List.mem_cons_self b t₂)
      rcases List.mem_cons.1 ha2 with h | ha2'
      · exact h
      rcases List.mem_cons.1 hb1 with h | hb1'
      · exact h.symm
      have h1 : projLe a b := (List.pairwise_cons.1 hs₁).1 b hb1'
      have h2 : projLe b a := (List.pairwise_cons.1 hs₂).1 a ha2'
      exact hanti a (List.mem_cons_self a t₁) b (List.mem_cons_of_mem a hb1') h1 h2
    subst hab
    have hp' := hp.cons_inv
    have htl := sorted_perm_eq t₁ t₂ hp'
      (List.pairwise_cons.1 hs₁).2 (List.pairwise_cons.1 hs₂).2
      (fun x hx y hy => hanti x (List.mem_cons_of_mem a hx) y (List.mem_cons_of_mem a hy))
    rw [htl]

/-- Helper: dense index stamping produces the consecutive indices starting
at `n`. -/
theorem assignIdxFrom_map_idx :
    ∀ (n : Nat) (l : List Project),
      (assignIdxFrom n l).map Project.idx = List.range' n l.length 1
  | _, [] => rfl
  | n, p :: ps => by
    rw [assignIdxFrom, List.map_cons, assignIdxFrom_map_idx (n + 1) ps,
      List.length_cons, List.range'_succ]
    rfl

/-- Helper: every element produced by index stamping is an index-stamped
element of the input. -/
theorem mem_assignIdxFrom :
    ∀ (n : Nat) (l : List Project) (q : Project), q ∈ assignIdxFrom n l →
      ∃ p ∈ l, ∃ m, q = withIdx p m
  | _, [], _, h => by simp [assignIdxFrom] at h
  | n, p :: ps, q, h => by
    rcases List.mem_cons.1 h with h | h
    · exact ⟨p, List.mem_cons_self p ps, n, h⟩
    · obtain ⟨p', hp', m, hm⟩ := mem_assignIdxFrom (n + 1) ps q h
      exact ⟨p', List.mem_cons_of_mem p hp', m, hm⟩

/-- Helper: index stamping preserves the sortedness relation, which reads
only depth and relative path. -/
theorem assignIdxFrom_pairwise :
    ∀ (n : Nat) (l : List Project), l.Pairwise projBefore →
      (assignIdxFrom n l).Pairwise projBefore
  | _, [], _ => List.Pairwise.nil
  | n, p :: ps, h => by
    rcases List.pairwise_cons.1 h with ⟨hhead, htail⟩
    rw [assignIdxFrom]
    refine List.pairwise_cons.2 ⟨?_, assignIdxFrom_pairwise (n + 1) ps htail⟩
    intro q hq
    obtain ⟨p', hp', m, hm⟩ := mem_assignIdxFrom (n + 1) ps q hq
    subst hm
    exact hhead p' hp'

/-- Claim C3: for a fixed set of discovered projects (distinct relative
paths), the post-walk processing of `Workspace::discover` is independent
of the walk's arrival order (any permutation sorts to the same sequence),
the resulting sequence is ordered by depth descending with ties broken by
relative path ascending, and each project's `idx` equals its position. -/
theorem discover_deterministic_order (ps qs : List Project)
    (hnodup : (ps.map Project.relativePath).Nodup)
    (hperm : qs.Perm ps) :
    sortAndIndex qs = sortAndIndex ps ∧
    (sortAndIndex ps).Pairwise projBefore ∧
    (sortAndIndex ps).map Project.idx = List.range ps.length := by
  have hanti : ∀ a ∈ ps, ∀ b ∈ ps, projLe a b → projLe b a → a = b := by
    intro a ha b hb h1 h2
    have hcmp : projectCmp a b = Ordering.eq := by
      rcases h : projectCmp a b with _ | _ | _
      · have hs := projectCmp_swap a b
        rw [h] at hs
        exact absurd hs.symm (by rw [projLe] at h2; exact fun hh => h2 (by rw [hh]; rfl))
      · rfl
      · exact absurd h h1
    obtain ⟨_, hpath⟩ := projectCmp_eq a b hcmp
    exact List.inj_on_of_nodup_map hnodup ha hb hpath
  have hsorted_ps : (sortProjects ps).Pairwise projLe :=
    List.sorted_insertionSort projLe ps
  have hsorted_qs : (sortProjects qs).Pairwise projLe :=
    List.sorted_insertionSort projLe qs
  have hperm_ps : (sortProjects ps).Perm ps := List.perm_insertionSort projLe ps
  have hperm_qs : (sortProjects qs).Perm qs := List.perm_insertionSort projLe qs
  have hsort_eq : sortProjects qs = sortProjects ps := by
    refine sorted_perm_eq (sortProjects qs) (sortProjects ps)
      (hperm_qs.trans (hperm.trans hperm_ps.symm)) hsorted_qs hsorted_ps ?_
    intro a ha b hb h1 h2
    exact hanti a (hperm.subset (hperm_qs.subset ha)) b (hperm.subset (hperm_qs.subset hb)) h1 h2
  refine ⟨?_, ?_, ?_⟩
  · rw [sortAndIndex, sortAndIndex, hsort_eq]
  · exact assignIdxFrom_pairwise 0 (sortProjects ps)
      (hsorted_ps.imp (fun {a b} h => (projLe_iff a b).1 h))
  · rw [sortAndIndex, assignIdxFrom_map_idx, hperm_ps.length_eq,
      List.range_eq_range']

/-- Witness for C3 at a concrete project multiset arriving in two
different walk orders. -/
theorem discover_deterministic_order_witness :
    sortAndIndex
      [⟨[], [], [], 0, 1, ⟨[]⟩, []⟩,
       ⟨[], [], ["b"], 0, 2, ⟨[]⟩, []⟩,
       ⟨[], [], ["a"], 0, 2, ⟨[]⟩, []⟩] =
    sortAndIndex
      [⟨[], [], ["a"], 0, 2, ⟨[]⟩, []⟩,
       ⟨[], [], ["b"], 0, 2, ⟨[]⟩, []⟩,
       ⟨[], [], [], 0, 1, ⟨[]⟩, []⟩] ∧
    (sortAndIndex
      [⟨[], [], ["a"], 0, 2, ⟨[]⟩, []⟩,
       ⟨[], [], ["b"], 0, 2, ⟨[]⟩, []⟩,
       ⟨[], [], [], 0, 1, ⟨[]⟩, []⟩]).Pairwise projBefore ∧
    (sortAndIndex
      [⟨[], [], ["a"], 0, 2, ⟨[]⟩, []⟩,
       ⟨[], [], ["b"], 0, 2, ⟨[]⟩, []⟩,
       ⟨[], [], [], 0, 1, ⟨[]⟩, []⟩]).map Project.idx = List.range 3 :=
  discover_deterministic_order
    [⟨[], [], ["a"], 0, 2, ⟨[]⟩, []⟩,
     ⟨[], [], ["b"], 0, 2, ⟨[]⟩, []⟩,
     ⟨[], [], [], 0, 1, ⟨[]⟩, []⟩]
    [⟨[], [], [], 0, 1, ⟨[]⟩, []⟩,
     ⟨[], [], ["b"], 0, 2, ⟨[]⟩, []⟩,
     ⟨[], [], ["a"], 0, 2, ⟨[]⟩, []⟩]
    (by decide) (by decide)

mutual
/-- Helper: every path collected under a parent directory extends the
parent's path. -/
theorem visitEntry_extends :
    ∀ (sel : Option (RelPath → Bool)) (pp : RelPath) (e : Entry) (p : RelPath),
      p ∈ visitEntry sel pp e → ∃ t, p = pp ++ t
  | sel, pp, .file name, p, h => by
    rw [visitEntry] at h
    by_cases hn : name = CONFIG_FILE
    · rw [if_pos hn] at h
      have hp : p = pp := by simpa using h
      exact ⟨[], by simp [hp]⟩
    · rw [if_neg hn] at h
      exact absurd h (by simp)
  | sel, pp, .dir name children, p, h => by
    rw [visitEntry] at h
    by_cases hm : matchesSel sel (pp ++ [name]) = true
    · rw [if_pos hm] at h
      obtain ⟨t, ht⟩ := visitEntries_extends sel (pp ++ [name]) children p h
      exact ⟨name :: t, by simp [ht]⟩
    · rw [if_neg hm] at h
      exact absurd h (by simp)
/-- Helper: every path collected under a parent directory extends the
parent's path (sibling lists). -/
theorem visitEntries_extends :
    ∀ (sel : Option (RelPath → Bool)) (pp : RelPath) (es : EntryList) (p : RelPath),
      p ∈ visitEntries sel pp es → ∃ t, p = pp ++ t
  | _, _, .nil, _, h => by
    rw [visitEntries] at h
    exact absurd h (by simp)
  | sel, pp, .cons e es, p, h => by
    rw [visitEntries] at h
    rcases List.mem_append.1 h with h | h
    · exact visitEntry_extends sel pp e p h
    · exact visitEntries_extends sel pp es p h
end

mutual
/-- Helper: a path is collected by the selector-filtered walk of one entry
exactly when it is collected by the unfiltered walk and every nonempty
directory prefix strictly below the parent matches the selector. -/
theorem visitEntry_char :
    ∀ (s : RelPath → Bool) (pp : RelPath) (e : Entry) (p : RelPath),
      p ∈ visitEntry (some s) pp e ↔
        (p ∈ visitEntry none pp e ∧
          ∀ t₁ t₂, t₁ ≠ [] → p = pp ++ t₁ ++ t₂ → s (pp ++ t₁) = true)
  | s, pp, .file name, p => by
    have hsame : visitEntry (some s) pp (.file name) = visitEntry none pp (.file name) := by
      rw [visitEntry, visitEntry]
    constructor
    · intro h
      refine ⟨hsame ▸ h, ?_⟩
      have hp : p = pp := by
        rw [visitEntry] at h
        by_cases hn : name = CONFIG_FILE
        · rw [if_pos hn] at h
          simpa using h
        · rw [if_neg hn] at h
          exact absurd h (by simp)
      intro t₁ t₂ hne heq
      exfalso
      rw [hp] at heq
      have hlen := congrArg List.length heq
      rw [List.length_append, List.length_append] at hlen
      have ht : t₁.length = 0 := by omega
      exact hne (List.eq_nil_of_length_eq_zero ht)
    · rintro ⟨h, _⟩
      exact hsame ▸ h
  | s, pp, .dir name children, p => by
    have hN : visitEntry none pp (.dir name children) =
        visitEntries none (pp ++ [name]) children := by
      simp [visitEntry, matchesSel]
    by_cases hm : s (pp ++ [name]) = true
    · have hL : visitEntry (some s) pp (.dir name children) =
          visitEntries (some s) (pp ++ [name]) children := by
        simp [visitEntry, matchesSel, hm]
      rw [hL, hN, visitEntries_char s (pp ++ [name]) children p]
      constructor
      · rintro ⟨hmem, hcond⟩
        refine ⟨hmem, ?_⟩
        obtain ⟨u, hu⟩ := visitEntries_extends none (pp ++ [name]) children p hmem
        intro t₁ t₂ hne heq
        rcases t₁ with _ | ⟨a, t₁'⟩
        · exact absurd rfl hne
        · have h1 : pp ++ (a :: (t₁' ++ t₂)) = pp ++ (name :: u) := by
            have h0 := heq.symm.trans hu
            simpa [List.append_assoc] using h0
          have h2 : a :: (t₁' ++ t₂) = name :: u := List.append_cancel_left h1
          injection h2 with ha hrest
          subst ha
          rcases t₁' with _ | ⟨b, t₁pp⟩
          · exact hm
          · have happ : p = pp ++ [a] ++ (b :: t₁pp) ++ t₂ := by
              rw [hu, ← hrest]
              simp
            have hres := hcond (b :: t₁pp) t₂ (by simp) happ
            simpa [List.append_assoc] using hres
      · rintro ⟨hmem, hcond⟩
        refine ⟨hmem, ?_⟩
        intro t₁ t₂ hne heq
        have hres := hcond (name :: t₁) t₂ (by simp)
          (by simpa [List.append_assoc] using heq)
        simpa [List.append_assoc] using hres
    · have hL : visitEntry (some s) pp (.dir name children) = [] := by
        simp [visitEntry, matchesSel, hm]
      rw [hL]
      constructor
      · intro h
        exact absurd h (by simp)
      · rintro ⟨hmem, hcond⟩
        exfalso
        rw [hN] at hmem
        obtain ⟨u, hu⟩ := visitEntries_extends none (pp ++ [name]) children p hmem
        have hres := hcond [name] u (by simp) (by simpa [List.append_assoc] using hu)
        exact hm hres
/-- Helper: the characterization for sibling lists. -/
theorem visitEntries_char :
    ∀ (s : RelPath → Bool) (pp : RelPath) (es : EntryList) (p : RelPath),
      p ∈ visitEntries (some s) pp es ↔
        (p ∈ visitEntries none pp es ∧
          ∀ t₁ t₂, t₁ ≠ [] → p = pp ++ t₁ ++ t₂ → s (pp ++ t₁) = true)
  | s, pp, .nil, p => by
    constructor
    · intro h
      rw [visitEntries] at h
      exact absurd h (by simp)
    · rintro ⟨hmem, _⟩
      rw [visitEntries] at hmem
      exact absurd hmem (by simp)
  | s, pp, .cons e es, p => by
    rw [visitEntries, visitEntries, List.mem_append, List.mem_append,
      visitEntry_char s pp e p, visitEntries_char s pp es p]
    tauto
end

/-- Claim C7: a path is collected by the selector-filtered workspace walk
exactly when it is collected by the unfiltered walk and every nonempty
directory prefix of it matches the selector.  Consequently a directory at
depth > 0 failing the selector contributes zero projects (any config below
it has that directory as a nonempty prefix), the workspace root itself
(the empty prefix) is never subjected to the selector, and a matching
directory's subtree is walked in full. -/
theorem selector_pruning (s : RelPath → Bool) (es : EntryList) (p : RelPath) :
    p ∈ walkRoot (some s) es ↔
      (p ∈ walkRoot none es ∧ ∀ t₁ t₂, t₁ ≠ [] → p = t₁ ++ t₂ → s t₁ = true) := by
  have h := visitEntries_char s [] es p
  simpa [walkRoot] using h

/-- Witness for C7: a two-directory tree with a selector admitting only
`a`; the project under `a` is collected, every nonempty prefix of its path
matches, and it is also found by the unfiltered walk. -/
theorem selector_pruning_witness :
    (["a"] : RelPath) ∈ walkRoot none
      (EntryList.cons
        (Entry.dir "a" (EntryList.cons (Entry.file CONFIG_FILE) EntryList.nil))
        (EntryList.cons
          (Entry.dir "b" (EntryList.cons (Entry.file CONFIG_FILE) EntryList.nil))
          EntryList.nil)) ∧
    ∀ t₁ t₂ : RelPath, t₁ ≠ [] → (["a"] : RelPath) = t₁ ++ t₂ →
      (fun q => decide (q = ["a"])) t₁ = true :=
  (selector_pruning (fun q => decide (q = ["a"]))
    (EntryList.cons
      (Entry.dir "a" (EntryList.cons (Entry.file CONFIG_FILE) EntryList.nil))
      (EntryList.cons
        (Entry.dir "b" (EntryList.cons (Entry.file CONFIG_FILE) EntryList.nil))
        EntryList.nil))
    ["a"]).1 (by decide)

/-- Helper: every remote identity declared in the scanned entries appears
among the deduplicated keys, unless it was already seen. -/
theorem dedup_covers :
    ∀ (l : List ConfigRepo) (seen : List RepoId) (r : RemoteRepoConfig),
      ConfigRepo.Remote r ∈ l →
      remoteKey r ∈ (dedupRemotes l seen).map remoteKey ∨ remoteKey r ∈ seen
  | [], _, _, h => absurd h (by simp)
  | c :: rest, seen, r, h => by
    rcases c with r' | hs | hs
    · rw [dedupRemotes]
      by_cases hseen : remoteKey r' ∈ seen
      · rw [if_pos hseen]
        rcases List.mem_cons.1 h with h | h
        · injection h with h
          subst h
          exact Or.inr hseen
        · exact dedup_covers rest seen r h
      · rw [if_neg hseen]
        rcases List.mem_cons.1 h with h | h
        · injection h with h
          subst h
          exact Or.inl (by simp)
        · rcases dedup_covers rest (remoteKey r' :: seen) r h with hk | hk
          · exact Or.inl (by simp [hk])
          · rcases List.mem_cons.1 hk with hk | hk
            · exact Or.inl (by simp [hk])
            · exact Or.inr hk
    · simp only [dedupRemotes]
      rcases List.mem_cons.1 h with h | h
      · exact absurd h (by simp)
      · exact dedup_covers rest seen r h
    · simp only [dedupRemotes]
      rcases List.mem_cons.1 h with h | h
      · exact absurd h (by simp)
      · exact dedup_covers rest seen r h

/-- Helper: membership in the deduplicated keys is exactly "declared and
not already seen". -/
theorem dedup_keys_mem :
    ∀ (l : List ConfigRepo) (seen : List RepoId) (k : RepoId),
      k ∈ (dedupRemotes l seen).map remoteKey ↔
        (k ∉ seen ∧ ∃ r, ConfigRepo.Remote r ∈ l ∧ remoteKey r = k)
  | [], seen, k => by simp [dedupRemotes]
  | c :: rest, seen, k => by
    rcases c with r' | hs | hs
    · rw [dedupRemotes]
      by_cases hseen : remoteKey r' ∈ seen
      · rw [if_pos hseen, dedup_keys_mem rest seen k]
        constructor
        · rintro ⟨hk, r, hr, hkey⟩
          exact ⟨hk, r, List.mem_cons_of_mem _ hr, hkey⟩
        · rintro ⟨hk, r, hr, hkey⟩
          rcases List.mem_cons.1 hr with hr | hr
          · injection hr with hr
            subst hr
            exact absurd (hkey ▸ hseen) hk
          · exact ⟨hk, r, hr, hkey⟩
      · rw [if_neg hseen, List.map_cons]
        constructor
        · intro hmem
          rcases List.mem_cons.1 hmem with hmem | hmem
          · subst hmem
            exact ⟨hseen, r', List.mem_cons_self _ _, rfl⟩
          · obtain ⟨hk, r, hr, hkey⟩ := (dedup_keys_mem rest (remoteKey r' :: seen) k).1 hmem
            refine ⟨fun hin => hk (List.mem_cons_of_mem _ hin),
              r, List.mem_cons_of_mem _ hr, hkey⟩
        · rintro ⟨hk, r, hr, hkey⟩
          by_cases hk' : k = remoteKey r'
          · subst hk'
            exact List.mem_cons_self _ _
          · rcases List.mem_cons.1 hr with hr | hr
            · injection hr with hr
              subst hr
              exact absurd hkey.symm hk'
            · refine List.mem_cons_of_mem _
                ((dedup_keys_mem rest (remoteKey r' :: seen) k).2 ?_)
              refine ⟨?_, r, hr, hkey⟩
              intro hin
              rcases List.mem_cons.1 hin with hin | hin
              · exact hk' hin
              · exact hk hin
    · simp only [dedupRemotes]
      rw [dedup_keys_mem rest seen k]
      constructor
      · rintro ⟨hk, r, hr, hkey⟩
        exact ⟨hk, r, List.mem_cons_of_mem _ hr, hkey⟩
      · rintro ⟨hk, r, hr, hkey⟩
        rcases List.mem_cons.1 hr with hr | hr
        · exact absurd hr (by simp)
        · exact ⟨hk, r, hr, hkey⟩
    · simp only [dedupRemotes]
      rw [dedup_keys_mem rest seen k]
      constructor
      · rintro ⟨hk, r, hr, hkey⟩
        exact ⟨hk, r, List.mem_cons_of_mem _ hr, hkey⟩
      · rintro ⟨hk, r, hr, hkey⟩
        rcases List.mem_cons.1 hr with hr | hr
        · exact absurd hr (by simp)
        · exact ⟨hk, r, hr, hkey⟩

/-- Helper: the deduplicated keys are pairwise distinct: each identity is
kept only at its first occurrence. -/
theorem dedup_keys_nodup :
    ∀ (l : List ConfigRepo) (seen : List RepoId),
      ((dedupRemotes l seen).map remoteKey).Nodup
  | [], _ => by simp [dedupRemotes]
  | c :: rest, seen => by
    rcases c with r' | hs | hs
    · rw [dedupRemotes]
      by_cases hseen : remoteKey r' ∈ seen
      · rw [if_pos hseen]
        exact dedup_keys_nodup rest seen
      · rw [if_neg hseen, List.map_cons, List.nodup_cons]
        refine ⟨?_, dedup_keys_nodup rest (remoteKey r' :: seen)⟩
        intro hmem
        obtain ⟨hk, _⟩ := (dedup_keys_mem rest (remoteKey r' :: seen) (remoteKey r')).1 hmem
        exact hk (List.mem_cons_self _ _)
    · simp only [dedupRemotes]
      exact dedup_keys_nodup rest seen
    · simp only [dedupRemotes]
      exact dedup_keys_nodup rest seen

/-- Helper: a successful clone pass records exactly the deduplicated
identities as map keys, in order. -/
theorem clonePass_keys (store : StoreModel) :
    ∀ (d : List RemoteRepoConfig) (n : Nat) (m : List (RepoId × Repo)),
      clonePass store d n = Except.ok m → m.map Prod.fst = d.map remoteKey
  | [], n, m, h => by
    have hm : m = [] := by simpa [clonePass] using h.symm
    simp [hm]
  | r :: rest, n, m, h => by
    rw [clonePass] at h
    rcases hc : store.clone r.repo r.rev with e | c
    · rw [hc] at h
      exact absurd h (by simp)
    · rw [hc] at h
      rcases hcp : clonePass store rest (n + 1) with e | m' <;> rw [hcp] at h
      · exact absurd h (by simp)
      · have hm : m = (remoteKey r, ⟨.remote r.repo r.rev c.path c.manifest, n⟩) :: m' := by
          simpa using h.symm
        rw [hm, List.map_cons, List.map_cons, clonePass_keys store rest (n + 1) m' hcp]

/-- Helper: every map entry built by the clone pass is a freshly wrapped
remote repo whose URL and revision are the entry's own key. -/
theorem clonePass_entries (store : StoreModel) :
    ∀ (d : List RemoteRepoConfig) (n : Nat) (m : List (RepoId × Repo)),
      clonePass store d n = Except.ok m →
      ∀ e ∈ m, ∃ path mf j, e.2 = ⟨RepoKind.remote e.1.1 e.1.2 path mf, j⟩
  | [], n, m, h => by
    have hm : m = [] := by simpa [clonePass] using h.symm
    subst hm
    simp
  | r :: rest, n, m, h => by
    rw [clonePass] at h
    rcases hc : store.clone r.repo r.rev with e0 | c
    · rw [hc] at h
      exact absurd h (by simp)
    · rw [hc] at h
      rcases hcp : clonePass store rest (n + 1) with e0 | m' <;> rw [hcp] at h
      · exact absurd h (by simp)
      · have hm : m = (remoteKey r, ⟨.remote r.repo r.rev c.path c.manifest, n⟩) :: m' := by
          simpa using h.symm
        subst hm
        intro e he
        rcases List.mem_cons.1 he with he | he
        · subst he
          exact ⟨c.path, c.manifest, n, rfl⟩
        · exact clonePass_entries store rest (n + 1) m' hcp e he

/-- Helper: identity lookup succeeds for any key recorded in the map. -/
theorem lookupRepo_isSome (m : List (RepoId × Repo)) (k : RepoId)
    (h : ∃ e ∈ m, e.1 = k) : (lookupRepo m k).isSome = true := by
  rw [lookupRepo]
  have hfind : (m.find? (fun e => decide (e.1 = k))).isSome = true := by
    rw [List.find?_isSome]
    obtain ⟨e, he, hk⟩ := h
    exact ⟨e, he, by simp [hk]⟩
  rcases hf : m.find? (fun e => decide (e.1 = k)) with _ | e
  · rw [hf] at hfind
    exact absurd hfind (by simp)
  · rw [hf]
    simp

/-- Helper: a successful identity lookup returns a recorded entry with
that key. -/
theorem lookupRepo_mem (m : List (RepoId × Repo)) (k : RepoId) (repo : Repo)
    (h : lookupRepo m k = some repo) : ∃ e ∈ m, e.1 = k ∧ e.2 = repo := by
  rw [lookupRepo] at h
  rcases hf : m.find? (fun e => decide (e.1 = k)) with _ | e <;> rw [hf] at h
  · exact absurd h (by simp)
  · have he := List.mem_of_find?_eq_some hf
    have hk := List.find?_some hf
    have h2 : e.2 = repo := by simpa using h
    exact ⟨e, he, by simpa using hk, h2⟩

/-- Helper: the second pass succeeds on a project whose every remote
entry's identity is in the map. -/
theorem buildRepos_some (m : List (RepoId × Repo)) :
    ∀ (cfg : List ConfigRepo) (n : Nat),
      (∀ r : RemoteRepoConfig, ConfigRepo.Remote r ∈ cfg →
        (lookupRepo m (remoteKey r)).isSome = true) →
      (buildRepos m cfg n).isSome = true
  | [], n, _ => by simp [buildRepos]
  | ConfigRepo.Remote r :: rest, n, hp => by
    rw [buildRepos]
    have hr := hp r (by simp)
    rcases hl : lookupRepo m (remoteKey r) with _ | repo
    · rw [hl] at hr
      exact absurd hr (by simp)
    · have hrest := buildRepos_some m rest n
        (fun r' hr' => hp r' (List.mem_cons_of_mem _ hr'))
      rcases hb : buildRepos m rest n with _ | rn
      · rw [hb] at hrest
        exact absurd hrest (by simp)
      · rcases rn with ⟨rs0, n0⟩
        simp
  | ConfigRepo.Local hs :: rest, n, hp => by
    rw [buildRepos]
    have hrest := buildRepos_some m rest (n + 1)
      (fun r' hr' => hp r' (List.mem_cons_of_mem _ hr'))
    rcases hb : buildRepos m rest (n + 1) with _ | rn
    · rw [hb] at hrest
      exact absurd hrest (by simp)
    · rcases rn with ⟨rs0, n0⟩
      simp
  | ConfigRepo.Meta hs :: rest, n, hp => by
    rw [buildRepos]
    have hrest := buildRepos_some m rest (n + 1)
      (fun r' hr' => hp r' (List.mem_cons_of_mem _ hr'))
    rcases hb : buildRepos m rest (n + 1) with _ | rn
    · rw [hb] at hrest
      exact absurd hrest (by simp)
    · rcases rn with ⟨rs0, n0⟩
      simp

/-- Helper: the second pass rebuilds the repos list positionally: same
length, remote positions resolved by identity lookup in the shared map,
local and meta positions instantiated fresh from their inline hooks. -/
theorem buildRepos_spec (m : List (RepoId × Repo)) :
    ∀ (cfg : List ConfigRepo) (n : Nat) (rs : List Repo) (n' : Nat),
      buildRepos m cfg n = some (rs, n') →
      rs.length = cfg.length ∧
      (∀ (i : Nat) (r : RemoteRepoConfig), cfg[i]? = some (ConfigRepo.Remote r) →
        rs[i]? = lookupRepo m (remoteKey r)) ∧
      (∀ (i : Nat) (hs : List ManifestHook), cfg[i]? = some (ConfigRepo.Local hs) →
        ∃ j, rs[i]? = some ⟨RepoKind.localRepo hs, j⟩) ∧
      (∀ (i : Nat) (hs : List ManifestHook), cfg[i]? = some (ConfigRepo.Meta hs) →
        ∃ j, rs[i]? = some ⟨RepoKind.metaRepo hs, j⟩)
  | [], n, rs, n', h => by
    have hrs : rs = [] := by
      have h' : some (([] : List Repo), n) = some (rs, n') := by simpa [buildRepos] using h
      injection h' with h'
      injection h' with h1 h2
      exact h1.symm
    subst hrs
    refine ⟨rfl, ?_, ?_, ?_⟩ <;> intro i r hi <;> simp at hi
  | ConfigRepo.Remote r :: rest, n, rs, n', h => by
    rw [buildRepos] at h
    rcases hl : lookupRepo m (remoteKey r) with _ | repo <;> rw [hl] at h
    · exact absurd h (by simp)
    · rcases hb : buildRepos m rest n with _ | rn <;> rw [hb] at h
      · exact absurd h (by simp)
      · rcases rn with ⟨rs0, n0⟩
        have hrs : rs = repo :: rs0 := by
          have h' : some ((repo :: rs0, n0)) = some ((rs, n')) := by simpa using h
          injection h' with h'
          injection h' with h1 h2
          exact h1.symm
        subst hrs
        obtain ⟨hlen, hrem, hloc, hmeta⟩ := buildRepos_spec m rest n rs0 n0 hb
        refine ⟨by simp [hlen], ?_, ?_, ?_⟩
        · intro i r' hi
          rcases i with _ | i
          · rw [List.getElem?_cons_zero] at hi
            injection hi with hi
            injection hi with hi
            subst hi
            rw [List.getElem?_cons_zero, hl]
          · rw [List.getElem?_cons_succ] at hi
            rw [List.getElem?_cons_succ]
            exact hrem i r' hi
        · intro i hs hi
          rcases i with _ | i
          · rw [List.getElem?_cons_zero] at hi
            exact absurd hi (by simp)
          · rw [List.getElem?_cons_succ] at hi
            rw [List.getElem?_cons_succ]
            exact hloc i hs hi
        · intro i hs hi
          rcases i with _ | i
          · rw [List.getElem?_cons_zero] at hi
            exact absurd hi (by simp)
          · rw [List.getElem?_cons_succ] at hi
            rw [List.getElem?_cons_succ]
            exact hmeta i hs hi
  | ConfigRepo.Local hs0 :: rest, n, rs, n', h => by
    rw [buildRepos] at h
    rcases hb : buildRepos m rest (n + 1) with _ | rn <;> rw [hb] at h
    · exact absurd h (by simp)
    · rcases rn with ⟨rs0, n0⟩
      have hrs : rs = ⟨RepoKind.localRepo hs0, n⟩ :: rs0 := by
        have h' : some ((⟨RepoKind.localRepo hs0, n⟩ :: rs0, n0)) = some ((rs, n')) := by
          simpa using h
        injection h' with h'
        injection h' with h1 h2
        exact h1.symm
      subst hrs
      obtain ⟨hlen, hrem, hloc, hmeta⟩ := buildRepos_spec m rest (n + 1) rs0 n0 hb
      refine ⟨by simp [hlen], ?_, ?_, ?_⟩
      · intro i r' hi
        rcases i with _ | i
        · rw [List.getElem?_cons_zero] at hi
          exact absurd hi (by simp)
        · rw [List.getElem?_cons_succ] at hi
          rw [List.getElem?_cons_succ]
          exact hrem i r' hi
      · intro i hs hi
        rcases i with _ | i
        · rw [List.getElem?_cons_zero] at hi
          injection hi with hi
          injection hi with hi
          subst hi
          exact ⟨n, by rw [List.getElem?_cons_zero]⟩
        · rw [List.getElem?_cons_succ] at hi
          rw [List.getElem?_cons_succ]
          exact hloc i hs hi
      · intro i hs hi
        rcases i with _ | i
        · rw [List.getElem?_cons_zero] at hi
          exact absurd hi (by simp)
        · rw [List.getElem?_cons_succ] at hi
          rw [List.getElem?_cons_succ]
          exact hmeta i hs hi
  | ConfigRepo.Meta hs0 :: rest, n, rs, n', h => by
    rw [buildRepos] at h
    rcases hb : buildRepos m rest (n + 1) with _ | rn <;> rw [hb] at h
    · exact absurd h (by simp)
    · rcases rn with ⟨rs0, n0⟩
      have hrs : rs = ⟨RepoKind.metaRepo hs0, n⟩ :: rs0 := by
        have h' : some ((⟨RepoKind.metaRepo hs0, n⟩ :: rs0, n0)) = some ((rs, n')) := by
          simpa using h
        injection h' with h'
        injection h' with h1 h2
        exact h1.symm
      subst hrs
      obtain ⟨hlen, hrem, hloc, hmeta⟩ := buildRepos_spec m rest (n + 1) rs0 n0 hb
      refine ⟨by simp [hlen], ?_, ?_, ?_⟩
      · intro i r' hi
        rcases i with _ | i
        · rw [List.getElem?_cons_zero] at hi
          exact absurd hi (by simp)
        · rw [List.getElem?_cons_succ] at hi
          rw [List.getElem?_cons_succ]
          exact hrem i r' hi
      · intro i hs hi
        rcases i with _ | i
        · rw [List.getElem?_cons_zero] at hi
          exact absurd hi (by simp)
        · rw [List.getElem?_cons_succ] at hi
          rw [List.getElem?_cons_succ]
          exact hloc i hs hi
      · intro i hs hi
        rcases i with _ | i
        · rw [List.getElem?_cons_zero] at hi
          injection hi with hi
          injection hi with hi
          subst hi
          exact ⟨n, by rw [List.getElem?_cons_zero]⟩
        · rw [List.getElem?_cons_succ] at hi
          rw [List.getElem?_cons_succ]
          exact hmeta i hs hi

/-- Helper: the second pass succeeds for all projects when every declared
remote identity is in the map. -/
theorem distributeRepos_some (m : List (RepoId × Repo)) :
    ∀ (ps : List Project) (n : Nat),
      (∀ p ∈ ps, ∀ r : RemoteRepoConfig, ConfigRepo.Remote r ∈ p.config.repos →
        (lookupRepo m (remoteKey r)).isSome = true) →
      (distributeRepos m ps n).isSome = true
  | [], n, _ => by simp [distributeRepos]
  | p :: rest, n, hp => by
    rw [distributeRepos]
    have hbs := buildRepos_some m p.config.repos n
      (fun r hr => hp p (List.mem_cons_self _ _) r hr)
    rcases hb : buildRepos m p.config.repos n with _ | rn
    · rw [hb] at hbs
      exact absurd hbs (by simp)
    · rcases rn with ⟨rs, n'⟩
      have hrest := distributeRepos_some m rest n'
        (fun q hq r hr => hp q (List.mem_cons_of_mem _ hq) r hr)
      rcases hd : distributeRepos m rest n' with _ | pr
      · rw [hd] at hrest
        exact absurd hrest (by simp)
      · rcases pr with ⟨ps', n''⟩
        simp [hd]

/-- Helper: a successful second pass pairs each project with its rebuilt
version: same configuration, repos produced by `buildRepos` over the
shared map. -/
theorem distributeRepos_forall₂ (m : List (RepoId × Repo)) :
    ∀ (ps : List Project) (n : Nat) (ps' : List Project) (n' : Nat),
      distributeRepos m ps n = some (ps', n') →
      List.Forall₂ (fun p p' => p'.config = p.config ∧
        ∃ k k', buildRepos m p.config.repos k = some (p'.repos, k')) ps ps'
  | [], n, ps', n', h => by
    have hps : ps' = [] := by
      have h' : some (([] : List Project), n) = some (ps', n') := by
        simpa [distributeRepos] using h
      injection h' with h'
      injection h' with h1 h2
      exact h1.symm
    subst hps
    exact List.Forall₂.nil
  | p :: rest, n, ps', n', h => by
    rw [distributeRepos] at h
    rcases hb : buildRepos m p.config.repos n with _ | rn <;> rw [hb] at h
    · exact absurd h (by simp)
    · rcases rn with ⟨rs, n0⟩
      have h2 : (match distributeRepos m rest n0 with
          | none => none
          | some (ps0, n1) => some (setRepos p rs :: ps0, n1)) = some (ps', n') := h
      rcases hd : distributeRepos m rest n0 with _ | pr <;> rw [hd] at h2
      · exact absurd h2 (by simp)
      · rcases pr with ⟨ps0, n1⟩
        have hps : ps' = setRepos p rs :: ps0 := by
          have h' : some ((setRepos p rs :: ps0, n1)) = some ((ps', n')) := by
            simpa using h2
          injection h' with h'
          injection h' with h1 h2x
          exact h1.symm
        subst hps
        exact List.Forall₂.cons ⟨rfl, n, n0, hb⟩
          (distributeRepos_forall₂ m rest n0 ps0 n1 hd)

/-- Helper: each element on the right of a `Forall₂` is related to some
element on the left. -/
theorem forall₂_mem_right {α β : Type _} {R : α → β → Prop} :
    ∀ {l₁ : List α} {l₂ : List β}, List.Forall₂ R l₁ l₂ →
      ∀ b ∈ l₂, ∃ a ∈ l₁, R a b := by
  intro l₁ l₂ h
  induction h with
  | nil =>
    intro b hb
    exact absurd hb (by simp)
  | cons hR hT ih =>
    intro b hb
    rcases List.mem_cons.1 hb with hb | hb
    · exact ⟨_, List.mem_cons_self _ _, hb ▸ hR⟩
    · obtain ⟨a, ha, hr⟩ := ih b hb
      exact ⟨a, List.mem_cons_of_mem _ ha, hr⟩

/-- Helper: a pointwise implication that may use membership on the left
transports a `Forall₂`. -/
theorem forall₂_imp_mem {α β : Type _} {R S : α → β → Prop} :
    ∀ {l₁ : List α} {l₂ : List β}, List.Forall₂ R l₁ l₂ →
      (∀ a ∈ l₁, ∀ b, R a b → S a b) → List.Forall₂ S l₁ l₂ := by
  intro l₁ l₂ h
  induction h with
  | nil =>
    intro _
    exact List.Forall₂.nil
  | cons hR hT ih =>
    intro himp
    exact List.Forall₂.cons (himp _ (List.mem_cons_self _ _) _ hR)
      (ih (fun a ha b hb => himp a (List.mem_cons_of_mem _ ha) b hb))

/-- Helper: positional pairing succeeds on equal lengths. -/
theorem zipEqL_isSome {α β : Type _} :
    ∀ (as : List α) (bs : List β), as.length = bs.length →
      (zipEqL as bs).isSome = true
  | [], [], _ => by simp [zipEqL]
  | [], _ :: _, h => by simp at h
  | _ :: _, [], h => by simp at h
  | a :: as, b :: bs, h => by
    rw [zipEqL]
    have hrest := zipEqL_isSome as bs (by simpa using h)
    rcases hz : zipEqL as bs with _ | l
    · rw [hz] at hrest
      exact absurd hrest (by simp)
    · simp

/-- Helper: after a successful clone pass over the deduplicated set, every
remote identity declared anywhere in the workspace can be looked up in the
shared map. -/
theorem initRepos_lookup_present (store : StoreModel) (ps : List Project)
    (m : List (RepoId × Repo))
    (hcp : clonePass store (dedupRemotes (allConfigRepos ps) []) 0 = Except.ok m) :
    ∀ p ∈ ps, ∀ r : RemoteRepoConfig, ConfigRepo.Remote r ∈ p.config.repos →
      (lookupRepo m (remoteKey r)).isSome = true := by
  intro p hp r hr
  have hall : ConfigRepo.Remote r ∈ allConfigRepos ps :=
    List.mem_flatMap.2 ⟨p, hp, hr⟩
  rcases dedup_covers (allConfigRepos ps) [] r hall with hkey | hkey
  · have hkeys := clonePass_keys store _ 0 m hcp
    rw [← hkeys] at hkey
    obtain ⟨e, he, hke⟩ := List.mem_map.1 hkey
    exact lookupRepo_isSome m _ ⟨e, he, hke⟩
  · exact absurd hkey (by simp)

/-- Helper: an identity absent from a key list is counted zero times. -/
theorem countKey_eq_zero (k : RepoId) :
    ∀ l : List RepoId, k ∉ l → countKey k l = 0
  | [], _ => rfl
  | k' :: rest, h => by
    rw [countKey]
    have h1 : k' ≠ k := fun e => h (by simp [e])
    have h2 : k ∉ rest := fun e => h (by simp [e])
    simp [h1, countKey_eq_zero k rest h2]

/-- Helper: an identity present in a duplicate-free key list is counted
exactly once. -/
theorem countKey_eq_one (k : RepoId) :
    ∀ l : List RepoId, l.Nodup → k ∈ l → countKey k l = 1
  | [], _, h => absurd h (by simp)
  | k' :: rest, hnd, h => by
    rw [countKey]
    rcases List.mem_cons.1 h with h | h
    · subst h
      have hnin : k ∉ rest := (List.nodup_cons.1 hnd).1
      simp [countKey_eq_zero k rest hnin]
    · have hk : k' ≠ k := fun e => (List.nodup_cons.1 hnd).1 (e ▸ h)
      simp [hk, countKey_eq_one k rest (List.nodup_cons.1 hnd).2 h]

/-- Helper: membership in the declared remote identities. -/
theorem mem_declaredRemoteKeys (ps : List Project) (k : RepoId) :
    k ∈ declaredRemoteKeys ps ↔
      ∃ r, ConfigRepo.Remote r ∈ allConfigRepos ps ∧ remoteKey r = k := by
  rw [declaredRemoteKeys, List.mem_filterMap]
  constructor
  · rintro ⟨c, hc, hf⟩
    rcases c with r | hs | hs
    · exact ⟨r, hc, by simpa using hf⟩
    · simp at hf
    · simp at hf
  · rintro ⟨r, hr, hk⟩
    exact ⟨ConfigRepo.Remote r, hr, by simpa using hk⟩

/-- Claim C10: a successful `Workspace::init_repos` never hits the
`expect` panic, and leaves every project with a repos list of exactly the
same length as its configured entry list, in positional correspondence
(remote positions carry a shared remote wrapping the declared URL and
revision, local/meta positions carry fresh instances of their inline
hooks), so the `zip_eq` pairing in `internal_init_hooks` never panics. -/
theorem repos_positional (store : StoreModel) (ps : List Project)
    (o : Option (List Project)) (h : initReposW store ps = Except.ok o) :
    ∃ ps', o = some ps' ∧
      List.Forall₂ (fun p p' =>
        p'.config = p.config ∧
        p'.repos.length = p'.config.repos.length ∧
        (zipEqL p'.config.repos p'.repos).isSome = true ∧
        (internalInitHooks p').isSome = true ∧
        (∀ (i : Nat) (r : RemoteRepoConfig),
          p'.config.repos[i]? = some (ConfigRepo.Remote r) →
          ∃ path mf j, p'.repos[i]? = some ⟨RepoKind.remote r.repo r.rev path mf, j⟩) ∧
        (∀ (i : Nat) (hs : List ManifestHook),
          p'.config.repos[i]? = some (ConfigRepo.Local hs) →
          ∃ j, p'.repos[i]? = some ⟨RepoKind.localRepo hs, j⟩) ∧
        (∀ (i : Nat) (hs : List ManifestHook),
          p'.config.repos[i]? = some (ConfigRepo.Meta hs) →
          ∃ j, p'.repos[i]? = some ⟨RepoKind.metaRepo hs, j⟩)) ps ps' := by
  rw [initReposW] at h
  rcases hcp : clonePass store (dedupRemotes (allConfigRepos ps) []) 0 with e | m <;>
    rw [hcp] at h
  · exact absurd h (by simp)
  · have hpresent := initRepos_lookup_present store ps m hcp
    have h2 : (match distributeRepos m ps (dedupRemotes (allConfigRepos ps) []).length with
        | none => Except.ok (none : Option (List Project))
        | some (ps'', _) => Except.ok (some ps'')) = Except.ok o := h
    rcases hd : distributeRepos m ps (dedupRemotes (allConfigRepos ps) []).length
        with _ | pr <;> rw [hd] at h2
    · have hsome := distributeRepos_some m ps
        (dedupRemotes (allConfigRepos ps) []).length hpresent
      rw [hd] at hsome
      exact absurd hsome (by simp)
    · rcases pr with ⟨ps', n''⟩
      have ho : o = some ps' := by simpa using h2.symm
      refine ⟨ps', ho, ?_⟩
      have hfa := distributeRepos_forall₂ m ps _ ps' n'' hd
      refine forall₂_imp_mem hfa ?_
      rintro p hp p' ⟨hcfg, k, k', hb⟩
      obtain ⟨hlen, hrem, hloc, hmeta⟩ := buildRepos_spec m p.config.repos k p'.repos k' hb
      refine ⟨hcfg, by rw [hcfg, hlen], ?_, ?_, ?_, ?_, ?_⟩
      · exact zipEqL_isSome p'.config.repos p'.repos (by rw [hcfg, hlen])
      · rw [internalInitHooks]
        have hz := zipEqL_isSome p'.config.repos p'.repos (by rw [hcfg, hlen])
        rcases hzz : zipEqL p'.config.repos p'.repos with _ | pairs
        · rw [hzz] at hz
          exact absurd hz (by simp)
        · simp
      · intro i r hi
        rw [hcfg] at hi
        have hlook := hrem i r hi
        have hmem : ConfigRepo.Remote r ∈ p.config.repos := List.getElem?_mem hi
        have hsome := hpresent p hp r hmem
        rcases hl : lookupRepo m (remoteKey r) with _ | repo
        · rw [hl] at hsome
          exact absurd hsome (by simp)
        · obtain ⟨e, he, hek, her⟩ := lookupRepo_mem m (remoteKey r) repo hl
          obtain ⟨path, mf, j, hrepo⟩ := clonePass_entries store _ 0 m hcp e he
          refine ⟨path, mf, j, ?_⟩
          rw [hlook, hl, her.symm, hrepo, hek]
          rfl
      · intro i hs hi
        rw [hcfg] at hi
        exact hloc i hs hi
      · intro i hs hi
        rw [hcfg] at hi
        exact hmeta i hs hi

/-- Claim C2: across all projects, each declared (URL, revision) identity
is passed to the store's clone operation exactly once (and identities
never declared are never cloned), and after a successful
`Workspace::init_repos` any two positions — in any projects — declaring
the same identity hold the very same shared `Repo` instance (equal
including the allocation identity `instanceId`). -/
theorem remote_dedup_shared (store : StoreModel) (ps ps' : List Project)
    (h : initReposW store ps = Except.ok (some ps')) :
    (∀ k, k ∈ declaredRemoteKeys ps → countKey k (cloneCallKeys ps) = 1) ∧
    (∀ k, k ∉ declaredRemoteKeys ps → countKey k (cloneCallKeys ps) = 0) ∧
    (∀ p₁, p₁ ∈ ps' → ∀ p₂, p₂ ∈ ps' → ∀ (i j : Nat) (r₁ r₂ : RemoteRepoConfig),
      p₁.config.repos[i]? = some (ConfigRepo.Remote r₁) →
      p₂.config.repos[j]? = some (ConfigRepo.Remote r₂) →
      remoteKey r₁ = remoteKey r₂ →
      p₁.repos[i]? = p₂.repos[j]? ∧ (p₁.repos[i]?).isSome = true) := by
  refine ⟨?_, ?_, ?_⟩
  · intro k hk
    obtain ⟨r, hr, hkey⟩ := (mem_declaredRemoteKeys ps k).1 hk
    have hmem : k ∈ cloneCallKeys ps :=
      (dedup_keys_mem (allConfigRepos ps) [] k).2 ⟨by simp, r, hr, hkey⟩
    exact countKey_eq_one k (cloneCallKeys ps)
      (dedup_keys_nodup (allConfigRepos ps) []) hmem
  · intro k hk
    refine countKey_eq_zero k (cloneCallKeys ps) ?_
    intro hmem
    obtain ⟨_, r, hr, hkey⟩ := (dedup_keys_mem (allConfigRepos ps) [] k).1 hmem
    exact hk ((mem_declaredRemoteKeys ps k).2 ⟨r, hr, hkey⟩)
  · rw [initReposW] at h
    rcases hcp : clonePass store (dedupRemotes (allConfigRepos ps) []) 0 with e | m <;>
      rw [hcp] at h
    · exact absurd h (by simp)
    · have hpresent := initRepos_lookup_present store ps m hcp
      have h2 : (match distributeRepos m ps (dedupRemotes (allConfigRepos ps) []).length with
          | none => Except.ok (none : Option (List Project))
          | some (ps'', _) => Except.ok (some ps'')) = Except.ok (some ps') := h
      rcases hd : distributeRepos m ps (dedupRemotes (allConfigRepos ps) []).length
          with _ | pr <;> rw [hd] at h2
      · exact absurd h2 (by simp)
      · rcases pr with ⟨ps0, n''⟩
        have hps0 : ps0 = ps' := by simpa using h2
        subst hps0
        have hfa := distributeRepos_forall₂ m ps _ ps0 n'' hd
        intro p₁ hp₁ p₂ hp₂ i j r₁ r₂ hi hj hkeys
        obtain ⟨q₁, hq₁, hcfg₁, k₁, k₁', hb₁⟩ := forall₂_mem_right hfa p₁ hp₁
        obtain ⟨q₂, hq₂, hcfg₂, k₂, k₂', hb₂⟩ := forall₂_mem_right hfa p₂ hp₂
        obtain ⟨_, hrem₁, _, _⟩ := buildRepos_spec m q₁.config.repos k₁ p₁.repos k₁' hb₁
        obtain ⟨_, hrem₂, _, _⟩ := buildRepos_spec m q₂.config.repos k₂ p₂.repos k₂' hb₂
        rw [hcfg₁] at hi
        rw [hcfg₂] at hj
        have hv₁ := hrem₁ i r₁ hi
        have hv₂ := hrem₂ j r₂ hj
        have hmem₁ : ConfigRepo.Remote r₁ ∈ q₁.config.repos := List.getElem?_mem hi
        have hsome := hpresent q₁ hq₁ r₁ hmem₁
        constructor
        · rw [hv₁, hv₂, hkeys]
        · rw [hv₁]
          rcases hl : lookupRepo m (remoteKey r₁) with _ | repo
          · rw [hl] at hsome
            exact absurd hsome (by simp)
          · simp

/-- Witness for C10 at a concrete two-project workspace sharing one
remote identity: the second pass succeeds and the second project's
rebuilt repos list pairs positionally with its two config entries. -/
theorem repos_positional_witness :
    ((⟨[], [], ["b"], 0, 2,
      ⟨[ConfigRepo.Remote ⟨"u", "v", [⟨"h"⟩]⟩, ConfigRepo.Local [⟨"l"⟩]]⟩,
      [⟨RepoKind.remote "u" "v" "checkout" [⟨"h"⟩], 0⟩,
       ⟨RepoKind.localRepo [⟨"l"⟩], 1⟩]⟩ : Project).repos.length = 2) ∧
    (zipEqL
      (⟨[], [], ["b"], 0, 2,
        ⟨[ConfigRepo.Remote ⟨"u", "v", [⟨"h"⟩]⟩, ConfigRepo.Local [⟨"l"⟩]]⟩,
        [⟨RepoKind.remote "u" "v" "checkout" [⟨"h"⟩], 0⟩,
         ⟨RepoKind.localRepo [⟨"l"⟩], 1⟩]⟩ : Project).config.repos
      (⟨[], [], ["b"], 0, 2,
        ⟨[ConfigRepo.Remote ⟨"u", "v", [⟨"h"⟩]⟩, ConfigRepo.Local [⟨"l"⟩]]⟩,
        [⟨RepoKind.remote "u" "v" "checkout" [⟨"h"⟩], 0⟩,
         ⟨RepoKind.localRepo [⟨"l"⟩], 1⟩]⟩ : Project).repos).isSome = true ∧
    (internalInitHooks
      (⟨[], [], ["b"], 0, 2,
        ⟨[ConfigRepo.Remote ⟨"u", "v", [⟨"h"⟩]⟩, ConfigRepo.Local [⟨"l"⟩]]⟩,
        [⟨RepoKind.remote "u" "v" "checkout" [⟨"h"⟩], 0⟩,
         ⟨RepoKind.localRepo [⟨"l"⟩], 1⟩]⟩ : Project)).isSome = true := by
  obtain ⟨ps', hps', hfa⟩ := repos_positional
    ⟨fun _ _ => Except.ok ⟨"checkout", [⟨"h"⟩]⟩⟩
    [⟨[], [], ["a"], 0, 2, ⟨[ConfigRepo.Remote ⟨"u", "v", [⟨"h"⟩]⟩]⟩, []⟩,
     ⟨[], [], ["b"], 0, 2,
      ⟨[ConfigRepo.Remote ⟨"u", "v", [⟨"h"⟩]⟩, ConfigRepo.Local [⟨"l"⟩]]⟩, []⟩]
    (some
      [⟨[], [], ["a"], 0, 2, ⟨[ConfigRepo.Remote ⟨"u", "v", [⟨"h"⟩]⟩]⟩,
        [⟨RepoKind.remote "u" "v" "checkout" [⟨"h"⟩], 0⟩]⟩,
       ⟨[], [], ["b"], 0, 2,
        ⟨[ConfigRepo.Remote ⟨"u", "v", [⟨"h"⟩]⟩, ConfigRepo.Local [⟨"l"⟩]]⟩,
        [⟨RepoKind.remote "u" "v" "checkout" [⟨"h"⟩], 0⟩,
         ⟨RepoKind.localRepo [⟨"l"⟩], 1⟩]⟩])
    rfl
  have hps : ps' =
      [⟨[], [], ["a"], 0, 2, ⟨[ConfigRepo.Remote ⟨"u", "v", [⟨"h"⟩]⟩]⟩,
        [⟨RepoKind.remote "u" "v" "checkout" [⟨"h"⟩], 0⟩]⟩,
       ⟨[], [], ["b"], 0, 2,
        ⟨[ConfigRepo.Remote ⟨"u", "v", [⟨"h"⟩]⟩, ConfigRepo.Local [⟨"l"⟩]]⟩,
        [⟨RepoKind.remote "u" "v" "checkout" [⟨"h"⟩], 0⟩,
         ⟨RepoKind.localRepo [⟨"l"⟩], 1⟩]⟩] := by
    injection hps' with hps'
    exact hps'.symm
  subst hps
  rcases hfa with _ | ⟨hR1, hrest⟩
  rcases hrest with _ | ⟨hR2, _⟩
  exact ⟨by rw [hR2.2.1]; rfl, hR2.2.2.1, hR2.2.2.2.1⟩

/-- Witness for C2 at the same workspace: the shared identity is cloned
once and both projects' first positions hold the identical shared
instance. -/
theorem remote_dedup_shared_witness :
    countKey ("u", "v") (cloneCallKeys
      [⟨[], [], ["a"], 0, 2, ⟨[ConfigRepo.Remote ⟨"u", "v", [⟨"h"⟩]⟩]⟩, []⟩,
       ⟨[], [], ["b"], 0, 2,
        ⟨[ConfigRepo.Remote ⟨"u", "v", [⟨"h"⟩]⟩, ConfigRepo.Local [⟨"l"⟩]]⟩, []⟩]) = 1 ∧
    ((⟨[], [], ["a"], 0, 2, ⟨[ConfigRepo.Remote ⟨"u", "v", [⟨"h"⟩]⟩]⟩,
       [⟨RepoKind.remote "u" "v" "checkout" [⟨"h"⟩], 0⟩]⟩ : Project).repos[0]? =
     (⟨[], [], ["b"], 0, 2,
       ⟨[ConfigRepo.Remote ⟨"u", "v", [⟨"h"⟩]⟩, ConfigRepo.Local [⟨"l"⟩]]⟩,
       [⟨RepoKind.remote "u" "v" "checkout" [⟨"h"⟩], 0⟩,
        ⟨RepoKind.localRepo [⟨"l"⟩], 1⟩]⟩ : Project).repos[0]? ∧
     ((⟨[], [], ["a"], 0, 2, ⟨[ConfigRepo.Remote ⟨"u", "v", [⟨"h"⟩]⟩]⟩,
       [⟨RepoKind.remote "u" "v" "checkout" [⟨"h"⟩], 0⟩]⟩ : Project).repos[0]?).isSome = true) := by
  have thm := remote_dedup_shared
    ⟨fun _ _ => Except.ok ⟨"checkout", [⟨"h"⟩]⟩⟩
    [⟨[], [], ["a"], 0, 2, ⟨[ConfigRepo.Remote ⟨"u", "v", [⟨"h"⟩]⟩]⟩, []⟩,
     ⟨[], [], ["b"], 0, 2,
      ⟨[ConfigRepo.Remote ⟨"u", "v", [⟨"h"⟩]⟩, ConfigRepo.Local [⟨"l"⟩]]⟩, []⟩]
    [⟨[], [], ["a"], 0, 2, ⟨[ConfigRepo.Remote ⟨"u", "v", [⟨"h"⟩]⟩]⟩,
      [⟨RepoKind.remote "u" "v" "checkout" [⟨"h"⟩], 0⟩]⟩,
     ⟨[], [], ["b"], 0, 2,
      ⟨[ConfigRepo.Remote ⟨"u", "v", [⟨"h"⟩]⟩, ConfigRepo.Local [⟨"l"⟩]]⟩,
      [⟨RepoKind.remote "u" "v" "checkout" [⟨"h"⟩], 0⟩,
       ⟨RepoKind.localRepo [⟨"l"⟩], 1⟩]⟩]
    rfl
  refine ⟨thm.1 ("u", "v") (by decide), ?_⟩
  exact thm.2.2 _ (List.mem_cons_self _ _) _ (by simp) 0 0
    ⟨"u", "v", [⟨"h"⟩]⟩ ⟨"u", "v", [⟨"h"⟩]⟩ rfl rfl rfl

end Prek
